import Mathlib

/-!
Verification of the bencode codec, metainfo model, peer session and download
scheduler of a BitTorrent client written in Rust.  Bytes are modelled as `Nat`
(with the convention that a byte stream is a `List Nat` of values `< 256`),
Rust machine integers as `Nat`/`Int` with explicit range conditions where they
matter, and fallible Rust functions (returning `anyhow::Result`) as `Option` /
explicit outcome types.  Rust functions that can panic are modelled with an
outcome type that has a dedicated constructor for the panic.
-/

/-! ## Byte and digit helpers -/

/-- ASCII decimal digit test (bytes 48..57). -/
def isDigit (c : Nat) : Bool := 48 ≤ c && c ≤ 57

/-- Value of a list of ASCII digits read in base 10 (most significant first). -/
def digitsToNat (l : List Nat) : Nat := l.foldl (fun a c => a * 10 + (c - 48)) 0

/-- Fueled helper for `natDigits`; fuel `n + 1` always suffices. -/
def natDigitsAux : Nat → Nat → List Nat
  | 0, _ => []
  | fuel + 1, n => if n < 10 then [n + 48] else natDigitsAux fuel (n / 10) ++ [n % 10 + 48]

/-- ASCII decimal representation of a natural number, as produced by Rust's
`Display` implementation for unsigned integers: no sign, no leading zeros,
`"0"` for zero. -/
def natDigits (n : Nat) : List Nat := natDigitsAux (n + 1) n

/-- ASCII decimal representation of a signed integer, as produced by Rust's
`Display` implementation for `i64`: optional leading `-`, no leading zeros,
`"0"` for zero (never `"-0"`). -/
def intStr (i : Int) : List Nat :=
  if i < 0 then 45 :: natDigits i.natAbs else natDigits i.natAbs

/-- The digits-only part of `parse_u64`: a nonempty run of ASCII digits whose
value fits in 64 bits.  Leading zeros are accepted. -/
def parse_u64_digits (d : List Nat) : Option Nat :=
  if d ≠ [] ∧ d.all isDigit = true ∧ digitsToNat d < 2 ^ 64 then some (digitsToNat d)
  else none

/-- Model of Rust's `str::parse::<u64>` / `usize` parsing (64-bit targets) at
the `Option` level: an optional leading `+`, then a nonempty run of ASCII
digits, rejecting values that overflow 64 bits. -/
def parse_u64 (l : List Nat) : Option Nat :=
  if l.head? = some 43 then parse_u64_digits l.tail else parse_u64_digits l

/-- The `i64` overflow check of Rust's integer parsing: a value is returned
only when it lies in `[-2^63, 2^63 - 1]`. -/
def signedInRange (v : Int) : Option Int :=
  if -(2 ^ 63) ≤ v ∧ v ≤ 2 ^ 63 - 1 then some v else none

/-- The digits-only part of `parse_i64`: a nonempty run of ASCII digits,
negated when the sign was `-`, within the `i64` range.  Leading zeros are
accepted. -/
def parse_i64_digits (neg : Bool) (d : List Nat) : Option Int :=
  if d ≠ [] ∧ d.all isDigit = true then
    signedInRange (if neg then -(digitsToNat d : Int) else (digitsToNat d : Int))
  else none

/-- Model of Rust's `str::parse::<i64>` at the `Option` level: an optional
leading `+` or `-`, then a nonempty run of ASCII digits, rejecting values
outside the `i64` range.  Leading zeros and `-0` are accepted (`-0` parses
to `0`). -/
def parse_i64 (l : List Nat) : Option Int :=
  if l.head? = some 43 then parse_i64_digits false l.tail
  else if l.head? = some 45 then parse_i64_digits true l.tail
  else parse_i64_digits false l

/-- Continuation byte test for UTF-8 (0x80..0xBF). -/
def contB (c : Nat) : Bool := 128 ≤ c && c ≤ 191

/-- Standard UTF-8 validity of a byte sequence, as checked by Rust's
`std::str::from_utf8`: 1–4 byte sequences, rejecting overlong encodings,
surrogates (U+D800..U+DFFF) and code points above U+10FFFF. -/
def isValidUtf8 : List Nat → Bool
  | [] => true
  | b :: rest =>
    if b ≤ 127 then isValidUtf8 rest
    else if b ≤ 193 then false
    else if b ≤ 223 then
      match rest with
      | c :: rest₂ => contB c && isValidUtf8 rest₂
      | [] => false
    else if b ≤ 239 then
      match rest with
      | c :: d :: rest₃ =>
        (if b = 224 then 160 ≤ c && c ≤ 191
         else if b = 237 then 128 ≤ c && c ≤ 159
         else contB c) && contB d && isValidUtf8 rest₃
      | _ => false
    else if b ≤ 244 then
      match rest with
      | c :: d :: e :: rest₄ =>
        (if b = 240 then 144 ≤ c && c ≤ 191
         else if b = 244 then 128 ≤ c && c ≤ 143
         else contB c) && contB d && contB e && isValidUtf8 rest₄
      | _ => false
    else false

/-- Strict lexicographic order on byte sequences.  This is the order of
Rust's `&str` (and of byte slices), which compares UTF-8 strings by their
underlying bytes, and is the key order of `BTreeMap<&str, _>`. -/
def lexLt : List Nat → List Nat → Bool
  | [], [] => false
  | [], _ :: _ => true
  | _ :: _, [] => false
  | a :: as', b :: bs' => if a < b then true else if b < a then false else lexLt as' bs'

/-- Byte list of an ASCII Lean string literal (convenience for writing keys
and concrete inputs). -/
def strBytes (s : String) : List Nat := s.toList.map Char.toNat

/-! ## The bencode value type

Mirror of `Value<'a>` in `src/common.rs` / `src/bencode.rs`:

* `Int(i64)` — modelled as `Int` (range conditions stated where relevant);
* `Str(&[u8])` — a byte list;
* `List(Vec<Value>)`;
* `Dict(BTreeMap<&str, Value>)` — modelled as an association list of
  (key bytes, value) pairs kept in ascending `lexLt` order with unique keys,
  which is exactly the iteration order of the `BTreeMap` (keys are `&str`,
  whose order is byte-lexicographic). -/

inductive Value where
  | int : Int → Value
  | str : List Nat → Value
  | list : List Value → Value
  | dict : List (List Nat × Value) → Value

/-- Insertion into the sorted association list modelling
`BTreeMap::insert`: keeps ascending key order, replaces the value when the
key is already present (the map ends up with the *last* inserted value). -/
def btreeInsert (k : List Nat) (v : Value) : List (List Nat × Value) → List (List Nat × Value)
  | [] => [(k, v)]
  | (k₀, v₀) :: rest =>
    if lexLt k k₀ then (k, v) :: (k₀, v₀) :: rest
    else if k = k₀ then (k, v) :: rest
    else (k₀, v₀) :: btreeInsert k v rest

/-- Lookup of a key in the decoded dict association list. -/
def dictLookup (k : List Nat) : List (List Nat × Value) → Option Value
  | [] => none
  | (k₀, v) :: rest => if k₀ = k then some v else dictLookup k rest

/-! ## The encoder (`bencode_value`, src/bencode.rs lines 22–51) -/

mutual

/-- Mirror of `bencode_value` (src/bencode.rs): `i{int}e` for integers,
`{len}:{bytes}` for strings, `l…e` for lists, `d…e` for dicts, where the dict
entries are emitted in the (ascending) iteration order of the map. -/
def bencode_value : Value → List Nat
  | .int i => 105 :: intStr i ++ [101]
  | .str s => natDigits s.length ++ 58 :: s
  | .list l => 108 :: bencode_list l ++ [101]
  | .dict d => 100 :: bencode_dict d ++ [101]

/-- Encoding of the elements of a bencode list, in order. -/
def bencode_list : List Value → List Nat
  | [] => []
  | v :: rest => bencode_value v ++ bencode_list rest

/-- Encoding of the entries of a bencode dict, in list (= map iteration)
order: each key as a bencoded string followed by the encoded value. -/
def bencode_dict : List (List Nat × Value) → List Nat
  | [] => []
  | (k, v) :: rest => natDigits k.length ++ 58 :: k ++ bencode_value v ++ bencode_dict rest

end

/-! ## The decoder (src/bdecode.rs)

Rust `splitn(2, sep)` produces the part before the first separator and the
part after it (`none` when the separator does not occur, which the source
turns into an error). -/

/-- Split a byte list at the first occurrence of `sep`: returns the bytes
before it and the bytes after it, or `none` when `sep` does not occur. -/
def splitAtFirst (sep : Nat) : List Nat → Option (List Nat × List Nat)
  | [] => none
  | c :: rest =>
    if c = sep then some ([], rest)
    else match splitAtFirst sep rest with
      | some (before, after) => some (c :: before, after)
      | none => none

/-- Mirror of `decode_int` (src/bdecode.rs lines 49–61): split the input
after the leading `i` at the first `e`; the part before it must parse as an
`i64` (the `from_utf8` check of the source is subsumed: any byte sequence
that is not valid UTF-8 also fails the integer parse). -/
def decode_int (input : List Nat) : Option (Value × List Nat) := do
  let (num, tail) ← splitAtFirst 101 (input.drop 1)
  let n ← parse_i64 num
  pure (.int n, tail)

/-- Mirror of `decode_string` (src/bdecode.rs lines 30–47): split the whole
input at the first `:`; the part before it must parse as a `usize` length
that does not exceed the remaining input, which is then split off. -/
def decode_string (input : List Nat) : Option (Value × List Nat) := do
  let (lenPart, tail) ← splitAtFirst 58 input
  let len ← parse_u64 lenPart
  if len > tail.length then none
  else pure (.str (tail.take len), tail.drop len)

mutual

/-- Mirror of `decode_value_inner` (src/bdecode.rs lines 17–28), with an
explicit fuel argument bounding the recursion depth (the Rust recursion
terminates because every nested call works on a strictly shorter suffix;
`decode_value` below passes fuel that provably suffices for every input).
Dispatch on the first byte: `i` → integer, ASCII digit → string, `l` → list,
`d` → dict, anything else (or an empty input) is an error. -/
def decode_value_inner : Nat → List Nat → Option (Value × List Nat)
  | 0, _ => none
  | fuel + 1, input =>
    match input with
    | [] => none
    | first :: _ =>
      if first = 105 then decode_int input
      else if isDigit first then decode_string input
      else if first = 108 then decode_list_loop fuel (input.drop 1) []
      else if first = 100 then decode_dict_loop fuel (input.drop 1) []
      else none

/-- Mirror of the loop of `decode_list` (src/bdecode.rs lines 63–79):
repeatedly decode values until a closing `e`, accumulating them in order
(`acc` holds the values decoded so far). -/
def decode_list_loop : Nat → List Nat → List Value → Option (Value × List Nat)
  | 0, _, _ => none
  | fuel + 1, input, acc =>
    match input with
    | [] => none
    | next :: rest =>
      if next = 101 then some (.list acc, rest)
      else match decode_value_inner fuel input with
        | some (v, tail) => decode_list_loop fuel tail (acc ++ [v])
        | none => none

/-- Mirror of the loop of `decode_dict` (src/bdecode.rs lines 81–103):
repeatedly decode a key (which must be a string whose bytes are valid UTF-8,
or the decode fails) and a value until a closing `e`, inserting each pair
into the map; a duplicate key replaces the earlier entry. -/
def decode_dict_loop : Nat → List Nat → List (List Nat × Value) → Option (Value × List Nat)
  | 0, _, _ => none
  | fuel + 1, input, acc =>
    match input with
    | [] => none
    | next :: rest =>
      if next = 101 then some (.dict acc, rest)
      else match decode_value_inner fuel input with
        | some (.str key, tail) =>
          if isValidUtf8 key then
            match decode_value_inner fuel tail with
            | some (v, tail₂) => decode_dict_loop fuel tail₂ (btreeInsert key v acc)
            | none => none
          else none
        | some _ => none
        | none => none

end

/-- Mirror of `decode_value` (src/bdecode.rs lines 9–15): decode one value
and require that the whole input was consumed.  The fuel `2 * length + 2`
always dominates the recursion depth of the Rust decoder (each pair of
nested calls consumes at least one input byte). -/
def decode_value (input : List Nat) : Option Value :=
  match decode_value_inner (2 * input.length + 2) input with
  | some (v, []) => some v
  | some (_, _ :: _) => none
  | none => none

/-- Mirror of `decode_value_str` (src/bdecode.rs lines 5–7): decode the UTF-8
bytes of a string. -/
def decode_value_str (s : String) : Option Value := decode_value (strBytes s)

/-! ## Canonical values

A byte sequence is a *canonical bencoded input* when it is the encoding of a
value in canonical form: integers within the signed 64-bit range (so they
render and re-parse exactly, with no leading zeros, `i0e` for zero and no
`-0` — `intStr` produces exactly this form), byte strings of 8-bit bytes
(lengths below `2 ^ 64`, the `usize` range), and dicts whose keys are unique
and in ascending byte-lexicographic order.  `canonV` additionally requires
dict keys to be valid UTF-8 — the condition under which the decoder of this
codebase can accept them at all. -/

/-- Adjacent-pairs strict ascending key order of a dict association list. -/
def keysSorted : List (List Nat × Value) → Bool
  | [] => true
  | [_] => true
  | (k₁, _) :: (k₂, v₂) :: rest => lexLt k₁ k₂ && keysSorted ((k₂, v₂) :: rest)

mutual

/-- Canonical form of a value (see the section comment).  UTF-8 validity of
dict keys is part of this predicate. -/
def canonV : Value → Bool
  | .int i => decide (-(2 ^ 63) ≤ i) && decide (i ≤ 2 ^ 63 - 1)
  | .str s => decide (s.length < 2 ^ 64) && s.all (· < 256)
  | .list l => canonL l
  | .dict d => keysSorted d && canonD d

/-- All elements of a list are canonical. -/
def canonL : List Value → Bool
  | [] => true
  | v :: rest => canonV v && canonL rest

/-- All entries of a dict have valid UTF-8 byte keys (of `usize` length,
8-bit bytes) and canonical values. -/
def canonD : List (List Nat × Value) → Bool
  | [] => true
  | (k, v) :: rest =>
    isValidUtf8 k && decide (k.length < 2 ^ 64) && k.all (· < 256) && canonV v && canonD rest

end

/-! ## Digit rendering and parsing lemmas -/
theorem natDigitsAux_fuel_irrel (n : Nat) :
    ∀ f₁ f₂, n < f₁ → n < f₂ → natDigitsAux f₁ n = natDigitsAux f₂ n := by
  induction n using Nat.strong_induction_on with
  | _ n ih =>
    intro f₁ f₂ h₁ h₂
    match f₁, f₂ with
    | g₁ + 1, g₂ + 1 =>
      by_cases h10 : n < 10
      · simp [natDigitsAux, h10]
      · have hd : n / 10 < n := Nat.div_lt_self (by omega) (by omega)
        simp only [natDigitsAux, h10, if_false]
        rw [ih (n / 10) hd g₁ g₂ (by omega) (by omega)]

theorem natDigits_eq (n : Nat) :
    natDigits n = if n < 10 then [n + 48] else natDigits (n / 10) ++ [n % 10 + 48] := by
  by_cases h10 : n < 10
  · simp [natDigits, natDigitsAux, h10]
  · have hd : n / 10 < n := Nat.div_lt_self (by omega) (by omega)
    rw [if_neg h10]
    have hstep : natDigits n = natDigitsAux n (n / 10) ++ [n % 10 + 48] := by
      rw [natDigits]
      rw [natDigitsAux]
      rw [if_neg h10]
    rw [hstep, natDigitsAux_fuel_irrel (n / 10) n (n / 10 + 1) hd (by omega)]
    rfl

theorem digitsToNat_append_one (l : List Nat) (c : Nat) :
    digitsToNat (l ++ [c]) = digitsToNat l * 10 + (c - 48) := by
  simp [digitsToNat, List.foldl_append]

theorem natDigits_spec (n : Nat) :
    (natDigits n).all isDigit = true ∧ natDigits n ≠ [] ∧ digitsToNat (natDigits n) = n := by
  induction n using Nat.strong_induction_on with
  | _ n ih =>
    rw [natDigits_eq]
    by_cases h10 : n < 10
    · simp [h10, digitsToNat, isDigit]
      omega
    · have hd : n / 10 < n := Nat.div_lt_self (by omega) (by omega)
      obtain ⟨ha, hne, hv⟩ := ih (n / 10) hd
      simp only [h10, if_false]
      refine ⟨?_, by simp, ?_⟩
      · simp only [List.all_append, ha, Bool.true_and, List.all_cons, List.all_nil,
          Bool.and_true]
        simp [isDigit]
        omega
      · rw [digitsToNat_append_one, hv]
        omega

theorem natDigits_all_digits (n : Nat) : (natDigits n).all isDigit = true :=
  (natDigits_spec n).1

theorem natDigits_ne_nil (n : Nat) : natDigits n ≠ [] :=
  (natDigits_spec n).2.1

theorem digitsToNat_natDigits (n : Nat) : digitsToNat (natDigits n) = n :=
  (natDigits_spec n).2.2

theorem isDigit_range {c : Nat} (h : isDigit c = true) : 48 ≤ c ∧ c ≤ 57 := by
  simp [isDigit] at h
  exact h

theorem natDigits_head_digit (n : Nat) :
    ∃ c cs, natDigits n = c :: cs ∧ isDigit c = true := by
  have ha := natDigits_all_digits n
  have hne := natDigits_ne_nil n
  cases h : natDigits n with
  | nil => exact absurd h hne
  | cons c cs =>
    rw [h] at ha
    simp only [List.all_cons, Bool.and_eq_true] at ha
    exact ⟨c, cs, rfl, ha.1⟩

theorem parse_u64_cons_other (c : Nat) (xs : List Nat) (h43 : c ≠ 43) :
    parse_u64 (c :: xs) = parse_u64_digits (c :: xs) := by
  rw [parse_u64, if_neg (by simp [h43])]

theorem parse_i64_cons_45 (xs : List Nat) : parse_i64 (45 :: xs) = parse_i64_digits true xs := by
  rw [parse_i64, if_neg (by simp), if_pos (by simp)]
  rfl

theorem parse_i64_cons_other (c : Nat) (xs : List Nat) (h43 : c ≠ 43) (h45 : c ≠ 45) :
    parse_i64 (c :: xs) = parse_i64_digits false (c :: xs) := by
  rw [parse_i64, if_neg (by simp [h43]), if_neg (by simp [h45])]

theorem parse_u64_digits_natDigits (n : Nat) (h : n < 2 ^ 64) :
    parse_u64_digits (natDigits n) = some n := by
  rw [parse_u64_digits, if_pos, digitsToNat_natDigits]
  refine ⟨natDigits_ne_nil n, natDigits_all_digits n, ?_⟩
  rw [digitsToNat_natDigits]
  exact h

theorem parse_u64_natDigits (n : Nat) (h : n < 2 ^ 64) :
    parse_u64 (natDigits n) = some n := by
  obtain ⟨c, cs, he, hc⟩ := natDigits_head_digit n
  have hc' := isDigit_range hc
  rw [he, parse_u64_cons_other c cs (by omega), ← he]
  exact parse_u64_digits_natDigits n h

theorem parse_i64_intStr (i : Int) (h₁ : -(2 ^ 63) ≤ i) (h₂ : i ≤ 2 ^ 63 - 1) :
    parse_i64 (intStr i) = some i := by
  obtain ⟨c, cs, he, hc⟩ := natDigits_head_digit i.natAbs
  have hc' := isDigit_range hc
  have hcore : ∀ b : Bool, parse_i64_digits b (natDigits i.natAbs)
      = signedInRange (if b then -(i.natAbs : Int) else (i.natAbs : Int)) := by
    intro b
    rw [parse_i64_digits,
      if_pos ⟨natDigits_ne_nil i.natAbs, natDigits_all_digits i.natAbs⟩,
      digitsToNat_natDigits]
  by_cases hneg : i < 0
  · rw [intStr, if_pos hneg, parse_i64_cons_45, hcore true]
    have habs : -(i.natAbs : Int) = i := by omega
    simp only [if_true, habs]
    rw [signedInRange, if_pos ⟨h₁, h₂⟩]
  · rw [intStr, if_neg hneg, he, parse_i64_cons_other c cs (by omega) (by omega), ← he,
      hcore false]
    have habs : (i.natAbs : Int) = i := by omega
    simp only [Bool.false_eq_true, if_false, habs]
    rw [signedInRange, if_pos ⟨h₁, h₂⟩]

/-! ## Order and insertion lemmas for the dict model -/

theorem lexLt_trans : ∀ a b c : List Nat, lexLt a b = true → lexLt b c = true → lexLt a c = true := by
  intro a
  induction a with
  | nil =>
    intro b c hab hbc
    cases c with
    | nil => cases b with
      | nil => simp [lexLt] at hab
      | cons y ys => simp [lexLt] at hbc
    | cons z zs => simp [lexLt]
  | cons x xs ih =>
    intro b c hab hbc
    cases b with
    | nil => simp [lexLt] at hab
    | cons y ys =>
      cases c with
      | nil => simp [lexLt] at hbc
      | cons z zs =>
        rw [lexLt] at hab hbc ⊢
        by_cases hxy : x < y
        · by_cases hyz : y < z
          · rw [if_pos (by omega)]
          · rw [if_pos hxy] at hab
            by_cases hzy : z < y
            · simp [hyz, hzy] at hbc
            · have : y = z := by omega
              subst this
              rw [if_pos hxy]
        · by_cases hyx : y < x
          · simp [hxy, hyx] at hab
          · have : x = y := by omega
            subst this
            simp only [hxy, if_false, lt_irrefl] at hab
            by_cases hyz : x < z
            · rw [if_pos hyz]
            · by_cases hzy : z < x
              · simp [hyz, hzy] at hbc
              · have : x = z := by omega
                subst this
                simp only [lt_irrefl, if_false] at hbc ⊢
                exact ih ys zs hab hbc

theorem lexLt_irrefl : ∀ a : List Nat, lexLt a a = false := by
  intro a
  induction a with
  | nil => rfl
  | cons x xs ih => simp [lexLt, ih]

theorem lexLt_asymm {a b : List Nat} (h : lexLt a b = true) : lexLt b a = false := by
  by_contra hc
  have hba : lexLt b a = true := by
    cases hb : lexLt b a
    · exact absurd hb hc
    · rfl
  have := lexLt_trans a b a h hba
  rw [lexLt_irrefl] at this
  exact Bool.false_ne_true this

theorem lexLt_ne {a b : List Nat} (h : lexLt a b = true) : a ≠ b := by
  intro hab
  subst hab
  rw [lexLt_irrefl] at h
  exact Bool.false_ne_true h

/-- Inserting a key strictly above every key of a sorted association list
appends the new entry at the end (this is how `decode_dict` rebuilds a dict
whose input keys already arrive in ascending order). -/
theorem btreeInsert_append (k : List Nat) (v : Value) :
    ∀ acc : List (List Nat × Value), (∀ p ∈ acc, lexLt p.1 k = true) →
      btreeInsert k v acc = acc ++ [(k, v)] := by
  intro acc
  induction acc with
  | nil => intro _; rfl
  | cons p rest ih =>
    intro h
    obtain ⟨k₀, v₀⟩ := p
    have hk₀ : lexLt k₀ k = true := h (k₀, v₀) (by simp)
    rw [btreeInsert, if_neg, if_neg]
    · rw [ih (fun q hq => h q (by simp [hq]))]
      rfl
    · exact fun he => absurd he (lexLt_ne hk₀).symm
    · rw [lexLt_asymm hk₀]
      simp

theorem keysSorted_tail {p : List Nat × Value} {t : List (List Nat × Value)}
    (h : keysSorted (p :: t) = true) : keysSorted t = true := by
  cases t with
  | nil => rfl
  | cons q rest =>
    obtain ⟨k₁, v₁⟩ := p
    obtain ⟨k₂, v₂⟩ := q
    rw [keysSorted, Bool.and_eq_true] at h
    exact h.2

theorem keysSorted_head_lt {k : List Nat} {v : Value} {t : List (List Nat × Value)}
    (h : keysSorted ((k, v) :: t) = true) : ∀ q ∈ t, lexLt k q.1 = true := by
  induction t generalizing k v with
  | nil => intro q hq; cases hq
  | cons q₀ rest ih =>
    intro q hq
    obtain ⟨k₂, v₂⟩ := q₀
    rw [keysSorted, Bool.and_eq_true] at h
    obtain ⟨h₁, h₂⟩ := h
    rcases List.mem_cons.mp hq with rfl | hmem
    · exact h₁
    · exact lexLt_trans _ _ _ h₁ (ih h₂ q hmem)

/-! ## Separator and head facts about rendered numbers and encodings -/

theorem natDigits_not_mem {x : Nat} (hx : 58 ≤ x) : ∀ n, x ∉ natDigits n := by
  intro n hmem
  have := natDigits_all_digits n
  rw [List.all_eq_true] at this
  have := isDigit_range (this x hmem)
  omega

theorem intStr_not_e (i : Int) : 101 ∉ intStr i := by
  rw [intStr]
  by_cases hneg : i < 0
  · rw [if_pos hneg]
    intro hmem
    rcases List.mem_cons.mp hmem with he | h
    · omega
    · exact natDigits_not_mem (by omega) _ h
  · rw [if_neg hneg]
    exact natDigits_not_mem (by omega) _

theorem splitAtFirst_spec (sep : Nat) :
    ∀ pre post, sep ∉ pre → splitAtFirst sep (pre ++ sep :: post) = some (pre, post) := by
  intro pre
  induction pre with
  | nil => intro post _; simp [splitAtFirst]
  | cons c cs ih =>
    intro post h
    have hc : ¬ c = sep := fun he => h (by simp [he])
    have hcs : sep ∉ cs := fun hm => h (by simp [hm])
    simp only [List.cons_append, splitAtFirst, if_neg hc, List.append_eq, ih post hcs]

/-- The first byte of any encoded value, together with the facts the decoder
dispatch needs: it is `i`, an ASCII digit, `l` or `d`, and never `e`. -/
theorem bencode_value_head (v : Value) :
    ∃ c cs, bencode_value v = c :: cs ∧ c ≠ 101 ∧
      (c = 105 ∨ isDigit c = true ∨ c = 108 ∨ c = 100) := by
  cases v with
  | int i => exact ⟨105, _, rfl, by omega, Or.inl rfl⟩
  | str s =>
    obtain ⟨c, cs, he, hc⟩ := natDigits_head_digit s.length
    have hc' := isDigit_range hc
    refine ⟨c, cs ++ 58 :: s, ?_, by omega, Or.inr (Or.inl hc)⟩
    rw [bencode_value, he]
    rfl
  | list l => exact ⟨108, _, rfl, by omega, Or.inr (Or.inr (Or.inl rfl))⟩
  | dict d => exact ⟨100, _, rfl, by omega, Or.inr (Or.inr (Or.inr rfl))⟩

theorem bencode_value_length_pos (v : Value) : 1 ≤ (bencode_value v).length := by
  obtain ⟨c, cs, he, -⟩ := bencode_value_head v
  rw [he]
  simp

theorem bencode_list_mem_le {v : Value} :
    ∀ l : List Value, v ∈ l → (bencode_value v).length ≤ (bencode_list l).length := by
  intro l
  induction l with
  | nil => intro h; cases h
  | cons w t ih =>
    intro h
    rw [bencode_list]
    simp only [List.length_append]
    cases h with
    | head => omega
    | tail _ hmem => have := ih hmem; omega

theorem bencode_dict_mem_le {p : List Nat × Value} :
    ∀ d : List (List Nat × Value), p ∈ d →
      (bencode_value p.2).length ≤ (bencode_dict d).length := by
  intro d
  induction d with
  | nil => intro h; cases h
  | cons q t ih =>
    intro h
    obtain ⟨k, w⟩ := q
    rw [bencode_dict]
    simp only [List.length_append, List.length_cons]
    rcases List.mem_cons.mp h with rfl | hmem
    · dsimp only
      omega
    · have := ih hmem
      omega

/-! ## Decoder dispatch and primitive round-trips -/

theorem decode_value_inner_i (f : Nat) (rest : List Nat) :
    decode_value_inner (f + 1) (105 :: rest) = decode_int (105 :: rest) := rfl

theorem decode_value_inner_l (f : Nat) (rest : List Nat) :
    decode_value_inner (f + 1) (108 :: rest) = decode_list_loop f rest [] := rfl

theorem decode_value_inner_d (f : Nat) (rest : List Nat) :
    decode_value_inner (f + 1) (100 :: rest) = decode_dict_loop f rest [] := rfl

theorem decode_value_inner_digit (f : Nat) (c : Nat) (rest : List Nat) (h : isDigit c = true) :
    decode_value_inner (f + 1) (c :: rest) = decode_string (c :: rest) := by
  have h' := isDigit_range h
  rw [decode_value_inner]
  rw [if_neg (by omega), if_pos h]

theorem decode_int_rt (i : Int) (h₁ : -(2 ^ 63) ≤ i) (h₂ : i ≤ 2 ^ 63 - 1) (rest : List Nat) :
    decode_int (105 :: (intStr i ++ 101 :: rest)) = some (.int i, rest) := by
  rw [decode_int]
  simp only [List.drop_succ_cons, List.drop_zero]
  rw [splitAtFirst_spec 101 (intStr i) rest (intStr_not_e i)]
  simp only [Option.bind_eq_bind, Option.some_bind]
  rw [parse_i64_intStr i h₁ h₂]
  rfl

theorem decode_string_rt (s rest : List Nat) (hlen : s.length < 2 ^ 64) :
    decode_string (natDigits s.length ++ 58 :: (s ++ rest)) = some (.str s, rest) := by
  rw [decode_string]
  rw [splitAtFirst_spec 58 (natDigits s.length) (s ++ rest)
    (natDigits_not_mem (by omega) s.length)]
  simp only [Option.bind_eq_bind, Option.some_bind]
  rw [parse_u64_natDigits s.length hlen]
  simp only [Option.some_bind]
  rw [if_neg (by simp)]
  rw [List.take_left, List.drop_left]
  rfl

theorem decode_list_loop_e (f : Nat) (acc : List Value) (rest : List Nat) :
    decode_list_loop (f + 1) (101 :: rest) acc = some (.list acc, rest) := rfl

theorem decode_dict_loop_e (f : Nat) (acc : List (List Nat × Value)) (rest : List Nat) :
    decode_dict_loop (f + 1) (101 :: rest) acc = some (.dict acc, rest) := rfl

theorem decode_list_loop_step (f c : Nat) (X : List Nat) (acc : List Value) (h : ¬ c = 101) :
    decode_list_loop (f + 1) (c :: X) acc
      = match decode_value_inner f (c :: X) with
        | some (v, tail) => decode_list_loop f tail (acc ++ [v])
        | none => none := by
  simp only [decode_list_loop]
  rw [if_neg h]

theorem decode_dict_loop_step (f c : Nat) (X : List Nat) (acc : List (List Nat × Value))
    (h : ¬ c = 101) :
    decode_dict_loop (f + 1) (c :: X) acc
      = match decode_value_inner f (c :: X) with
        | some (.str key, tail) =>
          if isValidUtf8 key then
            match decode_value_inner f tail with
            | some (v, tail₂) => decode_dict_loop f tail₂ (btreeInsert key v acc)
            | none => none
          else none
        | some _ => none
        | none => none := by
  simp only [decode_dict_loop]
  rw [if_neg h]

/-! ## Canonicity member lemmas -/

theorem canonV_int (i : Int) :
    canonV (.int i) = (decide (-(2 ^ 63) ≤ i) && decide (i ≤ 2 ^ 63 - 1)) := rfl

theorem canonV_str (s : List Nat) :
    canonV (.str s) = (decide (s.length < 2 ^ 64) && s.all (· < 256)) := rfl

theorem canonV_list (l : List Value) : canonV (.list l) = canonL l := rfl

theorem canonV_dict (d : List (List Nat × Value)) :
    canonV (.dict d) = (keysSorted d && canonD d) := rfl

theorem canonL_mem {l : List Value} (h : canonL l = true) : ∀ v ∈ l, canonV v = true := by
  induction l with
  | nil => intro v hv; cases hv
  | cons w t ih =>
    rw [canonL, Bool.and_eq_true] at h
    intro v hv
    rcases List.mem_cons.mp hv with rfl | hmem
    · exact h.1
    · exact ih h.2 v hmem

theorem canonD_mem {d : List (List Nat × Value)} (h : canonD d = true) :
    ∀ p ∈ d, isValidUtf8 p.1 = true ∧ p.1.length < 2 ^ 64 ∧ canonV p.2 = true := by
  induction d with
  | nil => intro p hp; cases hp
  | cons q t ih =>
    obtain ⟨k, w⟩ := q
    rw [canonD] at h
    simp only [Bool.and_eq_true, decide_eq_true_eq] at h
    intro p hp
    rcases List.mem_cons.mp hp with rfl | hmem
    · exact ⟨h.1.1.1.1, h.1.1.1.2, h.1.2⟩
    · exact ih h.2 p hmem

theorem canonD_tail {q : List Nat × Value} {t : List (List Nat × Value)}
    (h : canonD (q :: t) = true) : canonD t = true := by
  obtain ⟨k, w⟩ := q
  rw [canonD, Bool.and_eq_true] at h
  exact h.2

/-! ## The decoder/encoder round-trip on canonical values -/

theorem decode_list_loop_rt :
    ∀ (l : List Value),
      (∀ v ∈ l, ∀ f rest, (bencode_value v).length ≤ f →
            decode_value_inner f (bencode_value v ++ rest) = some (v, rest)) →
      ∀ f acc rest, (bencode_list l).length + 1 ≤ f →
        decode_list_loop f (bencode_list l ++ 101 :: rest) acc = some (.list (acc ++ l), rest) := by
  intro l
  induction l with
  | nil =>
    intro _hP f acc rest hf
    obtain ⟨g, rfl⟩ : ∃ g, f = g + 1 := ⟨f - 1, by omega⟩
    rw [bencode_list, List.nil_append, decode_list_loop_e, List.append_nil]
  | cons v t ih =>
    intro hP f acc rest hf
    rw [bencode_list] at hf ⊢
    simp only [List.length_append] at hf
    have hlv := bencode_value_length_pos v
    obtain ⟨g, rfl⟩ : ∃ g, f = g + 1 := ⟨f - 1, by omega⟩
    rw [List.append_assoc]
    obtain ⟨c, cs, he, hne, -⟩ := bencode_value_head v
    rw [he, List.cons_append]
    rw [decode_list_loop_step g c _ acc hne]
    have hv := hP v (List.mem_cons_self v t) g (bencode_list t ++ 101 :: rest) (by omega)
    rw [he, List.cons_append] at hv
    simp only [hv]
    have hrec := ih (fun w hw => hP w (List.mem_cons_of_mem v hw)) g (acc ++ [v]) rest
      (by omega)
    rw [hrec]
    simp [List.append_assoc]

theorem decode_dict_loop_rt :
    ∀ (d : List (List Nat × Value)),
      (∀ p ∈ d, ∀ f rest, (bencode_value p.2).length ≤ f →
            decode_value_inner f (bencode_value p.2 ++ rest) = some (p.2, rest)) →
      canonD d = true → keysSorted d = true →
      ∀ f acc rest, (bencode_dict d).length + 1 ≤ f →
        (∀ p ∈ acc, ∀ q ∈ d, lexLt p.1 q.1 = true) →
        decode_dict_loop f (bencode_dict d ++ 101 :: rest) acc = some (.dict (acc ++ d), rest) := by
  intro d
  induction d with
  | nil =>
    intro _hP _ _ f acc rest hf _
    obtain ⟨g, rfl⟩ : ∃ g, f = g + 1 := ⟨f - 1, by omega⟩
    rw [bencode_dict, List.nil_append, decode_dict_loop_e, List.append_nil]
  | cons q t ih =>
    intro hP hcanon hsorted f acc rest hf hacc
    obtain ⟨k, v⟩ := q
    obtain ⟨hutf, hklen, -⟩ := canonD_mem hcanon (k, v) (List.mem_cons_self _ t)
    have hlv := bencode_value_length_pos v
    obtain ⟨ck, cks, hek, hck⟩ := natDigits_head_digit k.length
    have hck' := isDigit_range hck
    have hnklen : 1 ≤ (natDigits k.length).length := by rw [hek]; simp
    rw [bencode_dict] at hf ⊢
    simp only [List.length_append, List.length_cons] at hf
    obtain ⟨g, rfl⟩ : ∃ g, f = g + 1 := ⟨f - 1, by omega⟩
    simp only [List.append_assoc, List.cons_append]
    -- the input now reads: natDigits |k| ++ 58 :: (k ++ (bencode_value v ++ (bencode_dict t ++ 101 :: rest)))
    rw [hek, List.cons_append]
    rw [decode_dict_loop_step g ck _ acc (by omega)]
    -- decode the key (a bencoded string)
    obtain ⟨g', rfl⟩ : ∃ g', g = g' + 1 := ⟨g - 1, by omega⟩
    have hkey : decode_value_inner (g' + 1)
        (ck :: (cks ++ 58 :: (k ++ (bencode_value v ++ (bencode_dict t ++ 101 :: rest)))))
        = some (.str k, bencode_value v ++ (bencode_dict t ++ 101 :: rest)) := by
      rw [decode_value_inner_digit g' ck _ hck, ← List.cons_append, ← hek]
      exact decode_string_rt k _ hklen
    simp only [hkey]
    rw [if_pos hutf]
    -- decode the value
    have hv' := hP (k, v) (List.mem_cons_self _ t)
    dsimp only at hv'
    have hv := hv' (g' + 1) (bencode_dict t ++ 101 :: rest) (by omega)
    simp only [hv]
    -- the accumulated map gains the entry at the end
    have hins : btreeInsert k v acc = acc ++ [(k, v)] :=
      btreeInsert_append k v acc (fun p hp => hacc p hp (k, v) (List.mem_cons_self _ t))
    rw [hins]
    -- recurse on the remaining entries
    have hrec := ih (fun p hp => hP p (List.mem_cons_of_mem _ hp)) (canonD_tail hcanon)
      (keysSorted_tail hsorted) (g' + 1) (acc ++ [(k, v)]) rest (by omega) ?_
    · rw [hrec]
      simp [List.append_assoc]
    · intro p hp q hq
      rcases List.mem_append.mp hp with hp' | hp'
      · exact hacc p hp' q (List.mem_cons_of_mem _ hq)
      · have : p = (k, v) := by simpa using hp'
        subst this
        exact keysSorted_head_lt hsorted q hq

theorem decode_value_inner_bencode :
    ∀ (n : Nat) (v : Value), (bencode_value v).length ≤ n → canonV v = true →
      ∀ f rest, (bencode_value v).length ≤ f →
        decode_value_inner f (bencode_value v ++ rest) = some (v, rest) := by
  intro n
  induction n using Nat.strong_induction_on with
  | _ n ih =>
    intro v hn hcanon f rest hf
    have hpos := bencode_value_length_pos v
    obtain ⟨g, rfl⟩ : ∃ g, f = g + 1 := ⟨f - 1, by omega⟩
    cases v with
    | int i =>
      rw [canonV_int] at hcanon
      simp only [Bool.and_eq_true, decide_eq_true_eq] at hcanon
      rw [bencode_value]
      simp only [List.cons_append, List.append_assoc, List.singleton_append, List.nil_append]
      rw [decode_value_inner_i, decode_int_rt i hcanon.1 hcanon.2]
    | str s =>
      rw [canonV_str] at hcanon
      simp only [Bool.and_eq_true, decide_eq_true_eq] at hcanon
      rw [bencode_value]
      simp only [List.append_assoc, List.cons_append]
      obtain ⟨c, cs, he, hc⟩ := natDigits_head_digit s.length
      rw [he, List.cons_append, decode_value_inner_digit g c _ hc, ← List.cons_append, ← he]
      exact decode_string_rt s rest hcanon.1
    | list l =>
      rw [canonV_list] at hcanon
      rw [bencode_value] at hn hf ⊢
      simp only [List.cons_append, List.append_assoc, List.singleton_append,
        List.nil_append] at hn hf ⊢
      rw [decode_value_inner_l]
      have hP : ∀ w ∈ l, ∀ f' rest', (bencode_value w).length ≤ f' →
          decode_value_inner f' (bencode_value w ++ rest') = some (w, rest') := by
        intro w hw
        have hle := bencode_list_mem_le l hw
        have hlt : (bencode_value w).length < n := by
          simp only [List.length_cons, List.length_append] at hn
          omega
        exact ih (bencode_value w).length hlt w le_rfl (canonL_mem hcanon w hw)
      have := decode_list_loop_rt l hP g [] rest (by
        simp only [List.length_cons, List.length_append] at hf
        omega)
      rw [this]
      simp
    | dict d =>
      rw [canonV_dict] at hcanon
      rw [Bool.and_eq_true] at hcanon
      rw [bencode_value] at hn hf ⊢
      simp only [List.cons_append, List.append_assoc, List.singleton_append,
        List.nil_append] at hn hf ⊢
      rw [decode_value_inner_d]
      have hP : ∀ p ∈ d, ∀ f' rest', (bencode_value p.2).length ≤ f' →
          decode_value_inner f' (bencode_value p.2 ++ rest') = some (p.2, rest') := by
        intro p hp
        have hle := bencode_dict_mem_le d hp
        have hlt : (bencode_value p.2).length < n := by
          simp only [List.length_cons, List.length_append] at hn
          omega
        exact ih (bencode_value p.2).length hlt p.2 le_rfl ((canonD_mem hcanon.2 p hp).2.2)
      have := decode_dict_loop_rt d hP hcanon.2 hcanon.1 g [] rest (by
        simp only [List.length_cons, List.length_append] at hf
        omega) (by intro p hp; cases hp)
      rw [this]
      simp

/-- The full round-trip: decoding the canonical encoding of a canonical value
recovers the value exactly (and hence re-encoding recovers the input bytes). -/
theorem decode_value_bencode (v : Value) (h : canonV v = true) :
    decode_value (bencode_value v) = some v := by
  rw [decode_value]
  have := decode_value_inner_bencode (bencode_value v).length v le_rfl h
    (2 * (bencode_value v).length + 2) [] (by omega)
  rw [List.append_nil] at this
  rw [this]

/-! ## Claim C1: round-trip of canonical bencoded inputs -/

/-- C1 (counterexample): the claim fails for the canonical input
`d1:\xffi0ee` — a dict with the single key `0xFF` (keys trivially in
ascending order, integer in `i0e` form), which is not valid UTF-8.
`decode_value` rejects it (`decode_dict` requires keys to convert with
`std::str::from_utf8`), so decoding-then-re-encoding cannot reproduce the
input. -/
theorem c1_roundtrip_counterexample :
    decode_value [100, 49, 58, 255, 105, 48, 101, 101] = none ∧
    (decode_value [100, 49, 58, 255, 105, 48, 101, 101]).map bencode_value
      ≠ some [100, 49, 58, 255, 105, 48, 101, 101] := by
  refine ⟨rfl, ?_⟩
  have h : decode_value [100, 49, 58, 255, 105, 48, 101, 101] = none := rfl
  rw [h]
  simp

/-- C1 (amended): for every canonical bencoded input whose dict keys are
valid UTF-8 — i.e. the encoding `bencode_value v` of any value `v` in
canonical form (`canonV`: `i64`-range integers rendered with no leading
zeros, `i0e` for zero and no `-0`; 8-bit byte strings; dicts with unique,
ascending, *valid UTF-8* keys) — decoding succeeds with exactly `v`, and
re-encoding the result reproduces the input bytes exactly.  Byte strings
need not be valid UTF-8 (only dict keys must). -/
theorem c1_roundtrip_canonical (v : Value) (h : canonV v = true) :
    decode_value (bencode_value v) = some v ∧
    (decode_value (bencode_value v)).map bencode_value = some (bencode_value v) := by
  have hd := decode_value_bencode v h
  exact ⟨hd, by rw [hd]; rfl⟩

/-- C1 (witness): the amended round-trip at the concrete canonical input
`d3:foo3:bar5:helloi52ee`, a dict with two ascending UTF-8 keys holding a
byte string (containing arbitrary bytes is allowed) and an integer. -/
theorem c1_roundtrip_canonical_witness :
    canonV (.dict [([102, 111, 111], .str [98, 97, 114]),
                   ([104, 101, 108, 108, 111], .int 52)]) = true ∧
    decode_value (bencode_value (.dict [([102, 111, 111], .str [98, 97, 114]),
                   ([104, 101, 108, 108, 111], .int 52)]))
      = some (.dict [([102, 111, 111], .str [98, 97, 114]),
                   ([104, 101, 108, 108, 111], .int 52)]) :=
  ⟨by decide,
   (c1_roundtrip_canonical (.dict [([102, 111, 111], .str [98, 97, 114]),
      ([104, 101, 108, 108, 111], .int 52)]) (by decide)).1⟩

/-! ## Claim C5: integer decoding of empty digits, `-0` and leading zeros -/

/-- C5 (counterexample): the claim says `i-0e` is rejected, but `decode_int`
delegates to Rust's `str::parse::<i64>`, which accepts `-0` and returns `0`,
so `decode_value` of `i-0e` succeeds with the integer 0. -/
theorem c5_int_rejects_counterexample :
    decode_value [105, 45, 48, 101] = some (.int 0) := rfl

/-- C5 (amended): integer decoding fails when the digit part is empty
(`ie`), but `-0` and leading-zero forms are accepted by Rust's `i64`
parsing: `i-0e` decodes to 0, `i007e` to 7, and `i-052e` to -52. -/
theorem c5_int_parsing :
    decode_value [105, 101] = none ∧
    decode_value [105, 45, 48, 101] = some (.int 0) ∧
    decode_value [105, 48, 48, 55, 101] = some (.int 7) ∧
    decode_value [105, 45, 48, 53, 50, 101] = some (.int (-52)) :=
  ⟨rfl, rfl, rfl, rfl⟩

/-! ## Claim C6: dict decoding and its key requirements -/

/-- C6 (counterexample): the claim says dict decoding fails whenever the
same key occurs twice, but `decode_dict` inserts into a `BTreeMap`, which
silently replaces the earlier entry: `d1:ai1e1:ai2ee` decodes successfully
to the single-entry dict mapping `a` to 2. -/
theorem c6_dict_keys_counterexample :
    decode_value [100, 49, 58, 97, 105, 49, 101, 49, 58, 97, 105, 50, 101, 101]
      = some (.dict [([97], .int 2)]) := rfl

/-- Any-order, duplicates-allowed analogue of `decode_dict_loop_rt`: the
entries need not be sorted or distinct; the loop folds them into the
accumulator with `btreeInsert`, one insertion per entry in input order. -/
theorem decode_dict_loop_any_order :
    ∀ (d : List (List Nat × Value)),
      (∀ p ∈ d, ∀ f rest, (bencode_value p.2).length ≤ f →
            decode_value_inner f (bencode_value p.2 ++ rest) = some (p.2, rest)) →
      (∀ p ∈ d, isValidUtf8 p.1 = true ∧ p.1.length < 2 ^ 64) →
      ∀ f acc rest, (bencode_dict d).length + 1 ≤ f →
        decode_dict_loop f (bencode_dict d ++ 101 :: rest) acc
          = some (.dict (d.foldl (fun a p => btreeInsert p.1 p.2 a) acc), rest) := by
  intro d
  induction d with
  | nil =>
    intro _hP _hK f acc rest hf
    obtain ⟨g, rfl⟩ : ∃ g, f = g + 1 := ⟨f - 1, by omega⟩
    rw [bencode_dict, List.nil_append, decode_dict_loop_e, List.foldl_nil]
  | cons q t ih =>
    intro hP hK f acc rest hf
    obtain ⟨k, v⟩ := q
    obtain ⟨hutf, hklen⟩ := hK (k, v) (List.mem_cons_self _ t)
    have hlv := bencode_value_length_pos v
    obtain ⟨ck, cks, hek, hck⟩ := natDigits_head_digit k.length
    have hck' := isDigit_range hck
    have hnklen : 1 ≤ (natDigits k.length).length := by rw [hek]; simp
    rw [bencode_dict] at hf ⊢
    simp only [List.length_append, List.length_cons] at hf
    obtain ⟨g, rfl⟩ : ∃ g, f = g + 1 := ⟨f - 1, by omega⟩
    simp only [List.append_assoc, List.cons_append]
    rw [hek, List.cons_append]
    rw [decode_dict_loop_step g ck _ acc (by omega)]
    obtain ⟨g', rfl⟩ : ∃ g', g = g' + 1 := ⟨g - 1, by omega⟩
    have hkey : decode_value_inner (g' + 1)
        (ck :: (cks ++ 58 :: (k ++ (bencode_value v ++ (bencode_dict t ++ 101 :: rest)))))
        = some (.str k, bencode_value v ++ (bencode_dict t ++ 101 :: rest)) := by
      rw [decode_value_inner_digit g' ck _ hck, ← List.cons_append, ← hek]
      exact decode_string_rt k _ hklen
    simp only [hkey]
    rw [if_pos hutf]
    have hv' := hP (k, v) (List.mem_cons_self _ t)
    dsimp only at hv'
    have hv := hv' (g' + 1) (bencode_dict t ++ 101 :: rest) (by omega)
    simp only [hv]
    have hrec := ih (fun p hp => hP p (List.mem_cons_of_mem _ hp))
      (fun p hp => hK p (List.mem_cons_of_mem _ hp)) (g' + 1) (btreeInsert k v acc) rest
      (by omega)
    rw [hrec]
    rfl

/-- `dictLookup` after a `btreeInsert`: the inserted key now maps to the new
value, every other key is unchanged. -/
theorem dictLookup_btreeInsert (k k₀ : List Nat) (v₀ : Value) :
    ∀ acc, dictLookup k (btreeInsert k₀ v₀ acc)
      = if k₀ = k then some v₀ else dictLookup k acc := by
  intro acc
  induction acc with
  | nil => rfl
  | cons q rest ih =>
    obtain ⟨k₁, v₁⟩ := q
    rw [btreeInsert]
    by_cases hlt : lexLt k₀ k₁ = true
    · rw [if_pos hlt]
      rfl
    · rw [if_neg hlt]
      by_cases heq : k₀ = k₁
      · rw [if_pos heq]
        subst heq
        simp only [dictLookup]
        by_cases hk : k₀ = k <;> simp [hk]
      · rw [if_neg heq]
        simp only [dictLookup]
        rw [ih]
        by_cases hk0 : k₀ = k <;> by_cases hk1 : k₁ = k
        · exact absurd (hk0.trans hk1.symm) heq
        · simp [hk0, hk1]
        · simp [hk0, hk1]
        · simp [hk0, hk1]

/-- Folding `btreeInsert` over an entry list realises last-wins semantics:
looking up a key in the folded map finds the value of the key's *last*
occurrence among the entries, falling back to the accumulator. -/
theorem dictLookup_foldl_insert :
    ∀ (entries acc : List (List Nat × Value)) (k : List Nat),
      dictLookup k (entries.foldl (fun a p => btreeInsert p.1 p.2 a) acc)
        = entries.foldl (fun r p => if p.1 = k then some p.2 else r) (dictLookup k acc) := by
  intro entries
  induction entries with
  | nil => intro acc k; rfl
  | cons p t ih =>
    intro acc k
    obtain ⟨k₀, v₀⟩ := p
    rw [List.foldl_cons, List.foldl_cons]
    dsimp only
    rw [ih, dictLookup_btreeInsert]

/-- The dict loop rejects any entry whose key is a bencoded string that is
not valid UTF-8, whatever follows it. -/
theorem decode_dict_loop_bad_utf8_key (key rest : List Nat)
    (acc : List (List Nat × Value)) (hutf : isValidUtf8 key = false)
    (hklen : key.length < 2 ^ 64) :
    ∀ f, decode_dict_loop (f + 2) (natDigits key.length ++ 58 :: (key ++ rest)) acc
      = none := by
  intro f
  obtain ⟨ck, cks, hek, hck⟩ := natDigits_head_digit key.length
  have hck' := isDigit_range hck
  rw [hek, List.cons_append]
  rw [decode_dict_loop_step (f + 1) ck _ acc (by omega)]
  have hkey : decode_value_inner (f + 1) (ck :: (cks ++ 58 :: (key ++ rest)))
      = some (.str key, rest) := by
    rw [decode_value_inner_digit f ck _ hck, ← List.cons_append, ← hek]
    exact decode_string_rt key rest hklen
  simp only [hkey]
  rw [if_neg (by simp [hutf])]

/-- The dict loop rejects any entry whose key position holds the canonical
encoding of a non-string value (an integer, list or dict), whatever
follows it. -/
theorem decode_dict_loop_nonstring_key (v : Value) (hcanon : canonV v = true)
    (hns : ∀ s, v ≠ .str s) :
    ∀ f rest acc, (bencode_value v).length ≤ f →
      decode_dict_loop (f + 1) (bencode_value v ++ rest) acc = none := by
  intro f rest acc hf
  obtain ⟨c, cs, he, hne, -⟩ := bencode_value_head v
  have hv := decode_value_inner_bencode (bencode_value v).length v le_rfl hcanon f rest hf
  rw [he, List.cons_append] at hv
  rw [he, List.cons_append, decode_dict_loop_step f c _ acc hne]
  cases v with
  | str s => exact absurd rfl (hns s)
  | int i => simp only [hv]
  | list l => simp only [hv]
  | dict d => simp only [hv]

/-- `decode_value` on an input beginning with `d` dispatches into the dict
loop, with fuel that dominates the loop's needs. -/
theorem decode_value_dict (X : List Nat) :
    decode_value (100 :: X)
      = match decode_dict_loop (2 * X.length + 3) X [] with
        | some (v, []) => some v
        | some (_, _ :: _) => none
        | none => none := by
  rw [decode_value]
  rw [show 2 * (100 :: X).length + 2 = (2 * X.length + 3) + 1 by
    simp only [List.length_cons]; omega]
  rw [decode_value_inner_d]

/-- C6 (amended): dict decoding accepts keys in *any* order: for every entry
sequence whose keys are valid UTF-8 (of `usize` length, 8-bit bytes) and
whose values are canonically encoded — sorted or not, with or without
duplicate keys — decoding its dict encoding succeeds and yields the map
obtained by `BTreeMap::insert`-ing the entries in input order; that
insertion fold has last-wins semantics: looking up any key finds the value
of the key's *last* occurrence (so a duplicate key never fails and the last
value wins).  Keys must be byte strings *and* valid UTF-8 even at the
generic codec layer: every dict whose first key is a string that is not
valid UTF-8 is rejected, and every dict whose first key position holds a
non-string value (integer, list or dict) is rejected. -/
theorem c6_dict_keys :
    (∀ entries : List (List Nat × Value), canonD entries = true →
      decode_value (100 :: (bencode_dict entries ++ [101]))
        = some (.dict (entries.foldl (fun a p => btreeInsert p.1 p.2 a) []))) ∧
    (∀ (entries : List (List Nat × Value)) (k : List Nat),
      dictLookup k (entries.foldl (fun a p => btreeInsert p.1 p.2 a) [])
        = entries.foldl (fun r p => if p.1 = k then some p.2 else r) none) ∧
    (∀ key rest : List Nat, isValidUtf8 key = false → key.length < 2 ^ 64 →
      decode_value (100 :: (natDigits key.length ++ 58 :: (key ++ rest))) = none) ∧
    (∀ (v : Value) (rest : List Nat), canonV v = true → (∀ s, v ≠ .str s) →
      decode_value (100 :: (bencode_value v ++ rest)) = none) := by
  refine ⟨?_, ?_, ?_, ?_⟩
  · intro entries hD
    rw [decode_value_dict]
    have hP : ∀ p ∈ entries, ∀ f rest, (bencode_value p.2).length ≤ f →
        decode_value_inner f (bencode_value p.2 ++ rest) = some (p.2, rest) :=
      fun p hp => decode_value_inner_bencode (bencode_value p.2).length p.2 le_rfl
        ((canonD_mem hD p hp).2.2)
    have hK : ∀ p ∈ entries, isValidUtf8 p.1 = true ∧ p.1.length < 2 ^ 64 :=
      fun p hp => ⟨(canonD_mem hD p hp).1, (canonD_mem hD p hp).2.1⟩
    have hloop := decode_dict_loop_any_order entries hP hK
      (2 * (bencode_dict entries ++ [101]).length + 3) [] []
      (by simp only [List.length_append, List.length_cons, List.length_nil]; omega)
    simp only [hloop]
  · intro entries k
    exact dictLookup_foldl_insert entries [] k
  · intro key rest hutf hklen
    rw [decode_value_dict]
    have h := decode_dict_loop_bad_utf8_key key rest [] hutf hklen
      (2 * (natDigits key.length ++ 58 :: (key ++ rest)).length + 1)
    rw [show 2 * (natDigits key.length ++ 58 :: (key ++ rest)).length + 3
        = 2 * (natDigits key.length ++ 58 :: (key ++ rest)).length + 1 + 2 from rfl]
    simp only [h]
  · intro v rest hcanon hns
    rw [decode_value_dict]
    have h := decode_dict_loop_nonstring_key v hcanon hns
      (2 * (bencode_value v ++ rest).length + 2) rest []
      (by simp only [List.length_append]; omega)
    rw [show 2 * (bencode_value v ++ rest).length + 3
        = 2 * (bencode_value v ++ rest).length + 2 + 1 from rfl]
    simp only [h]

/-- C6 (witness): the amended statement at concrete inputs: the unsorted,
duplicate-keyed entry sequence `b↦1, a↦2, a↦3` (whose encoding is
`d1:bi1e1:ai2e1:ai3ee`) decodes to its insertion fold; looking up `a` in
that fold finds the *last* value 3; the dict input starting with the
non-UTF-8 single-byte key `0x80` is rejected; and the dict input starting
with the integer key `i1e` is rejected. -/
theorem c6_dict_keys_witness :
    decode_value
        (100 :: (bencode_dict [([98], .int 1), ([97], .int 2), ([97], .int 3)] ++ [101]))
      = some (.dict ([([98], .int 1), ([97], .int 2), ([97], .int 3)].foldl
          (fun a p => btreeInsert p.1 p.2 a) [])) ∧
    dictLookup [97] ([([98], .int 1), ([97], .int 2), ([97], .int 3)].foldl
        (fun a p => btreeInsert p.1 p.2 a) []) = some (.int 3) ∧
    decode_value (100 :: (natDigits ([128] : List Nat).length ++ 58 :: ([128] ++ [])))
      = none ∧
    decode_value (100 :: (bencode_value (.int 1) ++ [])) = none :=
  ⟨c6_dict_keys.1 [([98], .int 1), ([97], .int 2), ([97], .int 3)] (by decide),
   (c6_dict_keys.2.1 [([98], .int 1), ([97], .int 2), ([97], .int 3)] [97]).trans rfl,
   c6_dict_keys.2.2.1 [128] [] (by decide) (by decide),
   c6_dict_keys.2.2.2 (.int 1) [] (by decide) (fun s h => Value.noConfusion h)⟩

/-! ## The metainfo model (src/torrent.rs)

`anyhow::Result` failures are modelled as `.err`; a Rust panic
(`todo!`, slice-index panic, division by zero) is modelled as `.panics`. -/

/-- Outcome of a Rust function that may fail with an error value (`.err`) or
abort the process with a panic (`.panics`). -/
inductive POutcome (α : Type) where
  | ok (val : α)
  | err (msg : String)
  | panics (msg : String)
deriving DecidableEq

/-- Mirror of `PieceInfo` (src/torrent.rs lines 62–67); the 20-byte hash is a
byte list. -/
structure PieceInfo where
  index : Nat
  length : Nat
  hash : List Nat
deriving DecidableEq

/-- Mirror of `TorrentFile` (src/torrent.rs lines 56–60). -/
structure TorrentFile where
  length : Nat
  path : List Nat
deriving DecidableEq

/-- Mirror of `TorrentType` (src/torrent.rs lines 45–54): an untagged union of
the single-file shape (a `length` key) and the multi-file shape (a `files`
key holding a `TorrentFile`). -/
inductive TorrentType where
  | singleFile (length : Nat)
  | multiFile (files : TorrentFile)
deriving DecidableEq

/-- Mirror of `TorrentInfo` (src/torrent.rs lines 16–25): `pieces` is stored
already split into 20-byte hashes. -/
structure TorrentInfo where
  name : List Nat
  torrent_type : TorrentType
  piece_length : Nat
  pieces : List (List Nat)
deriving DecidableEq

/-- Mirror of `Torrent` (src/torrent.rs lines 11–15). -/
structure Torrent where
  announce : List Nat
  info : TorrentInfo
deriving DecidableEq

/-- Mirror of `TorrentInfo::get_length` (src/torrent.rs lines 85–90): the
length of a single-file torrent; for a multi-file torrent the source runs
`todo!("multi file is not implemented yet")`, which panics. -/
def TorrentInfo.get_length (info : TorrentInfo) : POutcome Nat :=
  match info.torrent_type with
  | .singleFile length => .ok length
  | .multiFile _ => .panics "multi file is not implemented yet"

/-- Mirror of `TorrentInfo::is_single_file` (src/torrent.rs lines 92–97). -/
def TorrentInfo.is_single_file (info : TorrentInfo) : Bool :=
  match info.torrent_type with
  | .singleFile _ => true
  | .multiFile _ => false

/-- Mirror of `TorrentInfo::get_piece_info` (src/torrent.rs lines 99–116):
reject an index at or beyond the piece count, then return the piece whose
start is `index * piece_length`, whose length is the remaining size capped
at `piece_length`, and whose hash is the index-th entry of `pieces`.
`get_length` is called after the index check, so a multi-file torrent
panics here too.  (The `u32` subtraction `length - piece_start` is modelled
with natural subtraction; for any torrent accepted by `parse_torrent` the
subtraction never underflows, as proved below.) -/
def TorrentInfo.get_piece_info (info : TorrentInfo) (index : Nat) : POutcome PieceInfo :=
  if index ≥ info.pieces.length then .err "invalid piece index"
  else
    match info.get_length with
    | .panics m => .panics m
    | .err m => .err m
    | .ok length =>
      let piece_start := index * info.piece_length
      let left_size := length - piece_start
      let piece_length := min left_size info.piece_length
      .ok ⟨index, piece_length, info.pieces.getD index []⟩

/-! ### The serde-derived deserializer, modelled from the spec

The byte-level deserialization of a `.torrent` file is performed by the
external `serde_bencode` crate through the `Deserialize` derives on
`Torrent`/`TorrentInfo`/`TorrentType`/`TorrentFile`; that code is not part
of this repository.  It is modelled here on top of `decode_value` from the
spec's description of the metainfo format. -/

/-- A bencode integer interpreted as a Rust `u32` (how serde deserializes the
`length` and `piece length` fields): in range `[0, 2^32)`. -/
def parseU32 (i : Int) : Option Nat :=
  if 0 ≤ i ∧ i < 2 ^ 32 then some i.toNat else none

/-- A bencode integer interpreted as a Rust `usize` (the `TorrentFile.length`
field): in range `[0, 2^64)`. -/
def parseUsizeInt (i : Int) : Option Nat :=
  if 0 ≤ i ∧ i < 2 ^ 64 then some i.toNat else none

/-- Fueled splitting of a byte string into 20-byte chunks (fuel `≥ length`
always suffices because every step drops at least one element). -/
def chunks20Aux : Nat → List Nat → List (List Nat)
  | 0, _ => []
  | fuel + 1, l => if l = [] then [] else l.take 20 :: chunks20Aux fuel (l.drop 20)

/-- Mirror of `deserialize_pieces` (src/torrent.rs lines 27–38): the byte
string must split exactly into 20-byte hashes. -/
def deserialize_pieces (s : List Nat) : Option (List (List Nat)) :=
  if s.length % 20 = 0 then some (chunks20Aux s.length s) else none

/-- Modelled from the spec: the untagged `TorrentType` deserialization — the
`SingleFile` variant matches when the dict has a `length` key holding a
`u32`; otherwise the `MultiFile` variant matches when the dict has a `files`
key holding a dict with a `usize` `length` and a UTF-8 string `path`
(mirroring the `TorrentFile` struct of src/torrent.rs). -/
def deserializeTorrentType (d : List (List Nat × Value)) : Option TorrentType :=
  match (match dictLookup (strBytes "length") d with
         | some (.int i) => parseU32 i
         | _ => none) with
  | some n => some (.singleFile n)
  | none =>
    match dictLookup (strBytes "files") d with
    | some (.dict fd) =>
      match dictLookup (strBytes "length") fd, dictLookup (strBytes "path") fd with
      | some (.int flen), some (.str p) =>
        match parseUsizeInt flen with
        | some n => if isValidUtf8 p then some (.multiFile ⟨n, p⟩) else none
        | none => none
      | _, _ => none
    | _ => none

/-- Modelled from the spec: deserialization of the `info` dict — `name` is a
UTF-8 string, `piece length` a `u32`, `pieces` a byte string of concatenated
20-byte hashes, and the single/multi-file shape as in
`deserializeTorrentType`. -/
def deserializeTorrentInfo (v : Value) : Option TorrentInfo :=
  match v with
  | .dict d =>
    match dictLookup (strBytes "name") d, dictLookup (strBytes "piece length") d,
          dictLookup (strBytes "pieces") d with
    | some (.str name), some (.int pl), some (.str piecesBytes) =>
      if isValidUtf8 name then
        match parseU32 pl, deserialize_pieces piecesBytes, deserializeTorrentType d with
        | some pln, some hashes, some tt => some ⟨name, tt, pln, hashes⟩
        | _, _, _ => none
      else none
    | _, _, _ => none
  | _ => none

/-- Modelled from the spec: deserialization of a whole metainfo file — a
bencoded dict with a UTF-8 `announce` string and an `info` dict. -/
def deserializeTorrent (data : List Nat) : Option Torrent :=
  match decode_value data with
  | some (.dict d) =>
    match dictLookup (strBytes "announce") d, dictLookup (strBytes "info") d with
    | some (.str announce), some info =>
      if isValidUtf8 announce then
        match deserializeTorrentInfo info with
        | some ti => some ⟨announce, ti⟩
        | none => none
      else none
    | _, _ => none
  | _ => none

/-- Mirror of `parse_torrent` (src/torrent.rs lines 126–144): deserialize,
then validate — `get_length` is called unconditionally (so a parsed
multi-file torrent panics via `todo!` here), `piece_length > length` is
rejected, the piece count must equal `ceil(length / piece_length)` and be
nonzero.  A `piece_length` of zero makes the Rust expression
`(length + piece_length - 1) / piece_length` panic with a division by zero,
modelled by the explicit `.panics` branch. -/
def parse_torrent (data : List Nat) : POutcome Torrent :=
  match deserializeTorrent data with
  | none => .err "failed to decode torrent struct"
  | some torrent =>
    match torrent.info.get_length with
    | .panics m => .panics m
    | .err m => .err m
    | .ok length =>
      let piece_length := torrent.info.piece_length
      if piece_length > length then .err "piece length is larger than total length"
      else if piece_length = 0 then .panics "attempt to divide by zero"
      else
        let expected_piece_count := (length + piece_length - 1) / piece_length
        if torrent.info.pieces.length ≠ expected_piece_count then
          .err "count of hashes does not match the count that is based on the piece length"
        else if torrent.info.pieces.length = 0 then .err "torrent has no pieces"
        else .ok torrent

/-! ## Claim C4: multi-file torrents panic instead of an `Unsupported` error -/

/-- C4: whenever the metainfo deserializes to a multi-file torrent,
`parse_torrent` does not return an error value at all — it panics, because
it unconditionally calls `get_length`, whose multi-file arm is
`todo!("multi file is not implemented yet")`.  (The `is_single_file` guard
in `download_command` is unreachable for such inputs.) -/
theorem c4_parse_torrent_multifile_panics (data : List Nat) (t : Torrent)
    (hdes : deserializeTorrent data = some t)
    (hmulti : t.info.is_single_file = false) :
    parse_torrent data = .panics "multi file is not implemented yet" := by
  rw [TorrentInfo.is_single_file] at hmulti
  cases ht : t.info.torrent_type with
  | singleFile L =>
    simp only [ht] at hmulti
    cases hmulti
  | multiFile f =>
    have hlen : t.info.get_length = .panics "multi file is not implemented yet" := by
      rw [TorrentInfo.get_length, ht]
    simp only [parse_torrent, hdes, hlen]

/-- C4 (witness): the concrete metainfo
`d8:announce3:url4:infod5:filesd6:lengthi5e4:path1:ae4:name1:n12:piece lengthi1e6:pieces20:AAAAAAAAAAAAAAAAAAAAe e`
(a multi-file info dict: a `files` entry instead of `length`) makes
`parse_torrent` panic rather than return an `Unsupported` error value. -/
theorem c4_parse_torrent_multifile_panics_witness :
    parse_torrent (strBytes
        "d8:announce3:url4:infod5:filesd6:lengthi5e4:path1:ae4:name1:n12:piece lengthi1e6:pieces20:AAAAAAAAAAAAAAAAAAAAee")
      = .panics "multi file is not implemented yet" :=
  c4_parse_torrent_multifile_panics _
    ⟨strBytes "url",
     ⟨strBytes "n", .multiFile ⟨5, strBytes "a"⟩, 1, [strBytes "AAAAAAAAAAAAAAAAAAAA"]⟩⟩
    (by decide) (by decide)

/-! ## Claim C7: `get_piece_info` lengths, hashes and range errors -/

/-- C7: for a well-formed single-file torrent (positive `piece_length` not
exceeding the total length `L`, piece count equal to `ceil(L / piece_length)`,
20-byte hash entries), `get_piece_info idx` returns, for `idx` below the
piece count, the piece of length `min(piece_length, L - idx * piece_length)`
whose hash is the `idx`-th 20-byte entry of `pieces`; for `idx` at or above
the piece count it returns an out-of-range error. -/
theorem c7_get_piece_info (info : TorrentInfo) (L idx : Nat)
    (hL : info.torrent_type = .singleFile L)
    (hpl : 0 < info.piece_length)
    (_hple : info.piece_length ≤ L)
    (hcount : info.pieces.length = (L + info.piece_length - 1) / info.piece_length)
    (hp20 : ∀ p ∈ info.pieces, p.length = 20) :
    (idx < info.pieces.length →
      info.get_piece_info idx
        = .ok ⟨idx, min info.piece_length (L - idx * info.piece_length),
               info.pieces.getD idx []⟩
      ∧ (info.pieces.getD idx []).length = 20)
    ∧ (info.pieces.length ≤ idx → info.get_piece_info idx = .err "invalid piece index") := by
  constructor
  · intro hidx
    have hstart : idx * info.piece_length < L := by
      have h1 : idx + 1 ≤ (L + info.piece_length - 1) / info.piece_length := by omega
      have h2 : (idx + 1) * info.piece_length
          ≤ ((L + info.piece_length - 1) / info.piece_length) * info.piece_length :=
        Nat.mul_le_mul_right _ h1
      have h3 : ((L + info.piece_length - 1) / info.piece_length) * info.piece_length
          ≤ L + info.piece_length - 1 := Nat.div_mul_le_self _ _
      have h4 := le_trans h2 h3
      rw [Nat.succ_mul] at h4
      omega
    constructor
    · rw [TorrentInfo.get_piece_info, if_neg (by omega)]
      have hlen : info.get_length = .ok L := by rw [TorrentInfo.get_length, hL]
      rw [hlen]
      simp only [POutcome.ok.injEq, PieceInfo.mk.injEq]
      exact ⟨trivial, Nat.min_comm _ _, trivial⟩
    · rw [List.getD_eq_getElem _ _ hidx]
      exact hp20 _ (List.getElem_mem hidx)
  · intro hge
    rw [TorrentInfo.get_piece_info, if_pos (by omega)]

/-- C7 (witness): the boundary example of the claim — a 101-byte single-file
torrent with 100-byte pieces has two pieces, of lengths 100 and 1, carrying
the first and second 20-byte hash entries; index 2 is out of range. -/
theorem c7_get_piece_info_witness :
    TorrentInfo.get_piece_info
        ⟨[116], .singleFile 101, 100, [List.replicate 20 1, List.replicate 20 2]⟩ 0
      = .ok ⟨0, 100, List.replicate 20 1⟩ ∧
    TorrentInfo.get_piece_info
        ⟨[116], .singleFile 101, 100, [List.replicate 20 1, List.replicate 20 2]⟩ 1
      = .ok ⟨1, 1, List.replicate 20 2⟩ ∧
    TorrentInfo.get_piece_info
        ⟨[116], .singleFile 101, 100, [List.replicate 20 1, List.replicate 20 2]⟩ 2
      = .err "invalid piece index" := by
  have h₀ := (c7_get_piece_info
    ⟨[116], .singleFile 101, 100, [List.replicate 20 1, List.replicate 20 2]⟩ 101 0
    rfl (by decide) (by decide) (by decide) (by decide)).1 (by decide)
  have h₁ := (c7_get_piece_info
    ⟨[116], .singleFile 101, 100, [List.replicate 20 1, List.replicate 20 2]⟩ 101 1
    rfl (by decide) (by decide) (by decide) (by decide)).1 (by decide)
  have h₂ := (c7_get_piece_info
    ⟨[116], .singleFile 101, 100, [List.replicate 20 1, List.replicate 20 2]⟩ 101 2
    rfl (by decide) (by decide) (by decide) (by decide)).2 (by decide)
  refine ⟨?_, ?_, h₂⟩
  · rw [h₀.1]
    rfl
  · rw [h₁.1]
    rfl

/-! ## The peer session (src/peer.rs)

The TCP connection is modelled by the list of incoming bytes (what the
source reads from the socket); what the source writes does not influence
its return values and is not modelled.  The SHA-1 implementation comes from
the external `sha1` crate and is passed in as an explicit function
parameter. -/

/-- Big-endian 32-bit value of four bytes, as computed by
`u32::from_be_bytes`. -/
def u32be (b₀ b₁ b₂ b₃ : Nat) : Nat := ((b₀ * 256 + b₁) * 256 + b₂) * 256 + b₃

def BLOCK_SIZE : Nat := 16 * 1024

def BLOCK_HEADER_LENGTH : Nat := 8

def MAX_LENGTH : Nat := BLOCK_SIZE + BLOCK_HEADER_LENGTH

/-- Mirror of `piece_exists` (src/peer.rs lines 233–244): test the byte at
`piece_index / 8` against the mask `1 <<< (7 - piece_index % 8)`; an index
beyond the bitmap is reported as absent. -/
def piece_exists (piece_index : Nat) (pieces_bitmap : List Nat) : Bool :=
  let byte_key := piece_index / 8
  let bit_no := piece_index % 8
  match pieces_bitmap[byte_key]? with
  | none => false
  | some bitmap_byte => bitmap_byte &&& (1 <<< (7 - bit_no)) > 0

/-- Outcome of `read_message`: a panic (failed `assert!`), an error value, or
the message payload together with the unread remainder of the stream. -/
inductive ReadOutcome where
  | panics (msg : String)
  | err (msg : String)
  | ok (data : List Nat) (rest : List Nat)
deriving DecidableEq

/-- Mirror of `read_message` (src/peer.rs lines 198–220): read a 4-byte
big-endian length; `assert!(message_length > 0)` makes a zero length (a
keep-alive frame) abort via a panic; otherwise the payload length is
`message_length - 1`, capped at `MAX_LENGTH`; then one type byte that must
equal the expected type; then the payload. -/
def read_message (expect_type : Nat) (stream : List Nat) : ReadOutcome :=
  match stream with
  | b₀ :: b₁ :: b₂ :: b₃ :: rest =>
    if u32be b₀ b₁ b₂ b₃ = 0 then .panics "got a heartbeat message, not prepared for that"
    else if u32be b₀ b₁ b₂ b₃ - 1 > MAX_LENGTH then .err "received too large message length"
    else
      match rest with
      | [] => .err "failed to read message type"
      | msg_type :: rest₂ =>
        if msg_type ≠ expect_type then .err "got message of unexpected type"
        else if u32be b₀ b₁ b₂ b₃ - 1 ≤ rest₂.length then
          .ok (rest₂.take (u32be b₀ b₁ b₂ b₃ - 1)) (rest₂.drop (u32be b₀ b₁ b₂ b₃ - 1))
        else .err "failed to read message data"
  | _ => .err "failed to read message length"

/-- Mirror of the socket-free part of `Peer` (src/peer.rs lines 55–59). -/
structure Peer where
  peer_id : List Nat
  has_pieces : List Nat

/-- Mirror of `Peer::has_piece` (src/peer.rs lines 68–70). -/
def Peer.has_piece (p : Peer) (piece_index : Nat) : Bool :=
  piece_exists piece_index p.has_pieces

/-- Mirror of `Peer::next_block_params` (src/peer.rs lines 101–109): block
`block_no` starts at `block_no * BLOCK_SIZE` and covers the remaining bytes
capped at `BLOCK_SIZE`; once the start reaches the piece size there is no
further block. -/
def next_block_params (block_no piece_size : Nat) : Option (Nat × Nat) :=
  let block_start := block_no * BLOCK_SIZE
  if block_start ≥ piece_size then none
  else some (block_start, min (piece_size - block_start) BLOCK_SIZE)

/-- Mirror of `Peer::extract_block_from_response` (src/peer.rs lines
111–127): the response must be exactly `8 + block_length` bytes, its first
four bytes must be the piece index and the next four the block start (both
big-endian); the rest is the block payload.  (`_block_no` only feeds error
messages in the source.) -/
def extract_block_from_response (block_response : List Nat)
    (piece_index _block_no block_start block_length : Nat) : Option (List Nat) :=
  if block_response.length ≠ block_length + BLOCK_HEADER_LENGTH then none
  else
    match block_response with
    | i₀ :: i₁ :: i₂ :: i₃ :: s₀ :: s₁ :: s₂ :: s₃ :: block =>
      if u32be i₀ i₁ i₂ i₃ ≠ piece_index then none
      else if u32be s₀ s₁ s₂ s₃ ≠ block_start then none
      else some block
    | _ => none

/-- Outcome of the block-download loop of `download_piece`: a propagated
panic or error, or the accumulated piece bytes with the unread remainder of
the stream. -/
inductive LoopOutcome where
  | panics (msg : String)
  | err (msg : String)
  | done (acc : List Nat) (rest : List Nat)
deriving DecidableEq

/-- Mirror of the `while let` loop of `Peer::download_piece` (src/peer.rs
lines 80–89), with fuel bounding the iteration count (the Rust loop ends
when `block_no * BLOCK_SIZE` reaches the piece size; `download_piece` below
passes fuel that provably suffices).  Each iteration sends one request
(which does not affect the incoming stream), reads one `Piece` message and
validates/appends the block. -/
def download_piece_loop (piece_index piece_size : Nat) :
    Nat → Nat → List Nat → List Nat → LoopOutcome
  | 0, block_no, acc, stream =>
    match next_block_params block_no piece_size with
    | none => .done acc stream
    | some _ => .err "unreachable: loop fuel exhausted"
  | fuel + 1, block_no, acc, stream =>
    match next_block_params block_no piece_size with
    | none => .done acc stream
    | some (block_start, block_length) =>
      match read_message 7 stream with
      | .panics m => .panics m
      | .err m => .err m
      | .ok block_response rest =>
        match extract_block_from_response block_response piece_index (block_no + 1)
            block_start block_length with
        | none => .err "invalid block response"
        | some block => download_piece_loop piece_index piece_size fuel (block_no + 1)
            (acc ++ block) rest

/-- Mirror of `Peer::download_piece` (src/peer.rs lines 72–99): fail when
the peer's bitfield lacks the piece's bit; otherwise run the block loop and
finally compare the SHA-1 of the accumulated bytes (`sha1` is the external
hash function) with the expected piece hash — equality returns the bytes,
inequality is a hash-mismatch error. -/
def download_piece (sha1 : List Nat → List Nat) (peer : Peer) (stream : List Nat)
    (pi : PieceInfo) : POutcome (List Nat) :=
  if peer.has_piece pi.index = false then .err "peer does not have piece"
  else
    match download_piece_loop pi.index pi.length (pi.length + 1) 0 [] stream with
    | .panics m => .panics m
    | .err m => .err m
    | .done full_piece _ =>
      if sha1 full_piece = pi.hash then .ok full_piece
      else .err "hash does not match"


/-- Every error value of `read_message` carries one of its five message
strings (used to show the loop's fuel-exhaustion sentinel never aliases a
real error). -/
theorem read_message_err_msgs (t : Nat) (s : List Nat) (m : String)
    (h : read_message t s = .err m) :
    m = "failed to read message length" ∨ m = "received too large message length"
    ∨ m = "failed to read message type" ∨ m = "got message of unexpected type"
    ∨ m = "failed to read message data" := by
  unfold read_message at h
  repeat' split at h
  all_goals cases h <;> tauto

/-- The loop fuel `piece_size + 1` used by `download_piece` never runs out:
as long as `piece_size ≤ (block_no + fuel) * BLOCK_SIZE`, the loop ends by
`next_block_params` returning `none` (or an earlier read/validation error),
never by fuel exhaustion — so the fueled model agrees with the unbounded
Rust loop. -/
theorem download_piece_loop_no_fuel_exhaustion (piece_index piece_size : Nat) :
    ∀ fuel block_no acc stream, piece_size ≤ (block_no + fuel) * BLOCK_SIZE →
      download_piece_loop piece_index piece_size fuel block_no acc stream
        ≠ .err "unreachable: loop fuel exhausted" := by
  intro fuel
  induction fuel with
  | zero =>
    intro block_no acc stream hle
    rw [download_piece_loop, next_block_params]
    simp only [Nat.add_zero] at hle
    rw [if_pos (by omega)]
    intro h
    cases h
  | succ f ih =>
    intro block_no acc stream hle
    rw [download_piece_loop]
    cases hnb : next_block_params block_no piece_size with
    | none =>
      simp only [hnb]
      intro h
      cases h
    | some p =>
      obtain ⟨bs, bl⟩ := p
      simp only [hnb]
      cases hrm : read_message 7 stream with
      | panics m =>
        simp only [hrm]
        intro h
        cases h
      | err m =>
        simp only [hrm]
        intro h
        have hm : m = "unreachable: loop fuel exhausted" := by
          simp only [LoopOutcome.err.injEq] at h
          exact h
        rcases read_message_err_msgs 7 stream m hrm with h' | h' | h' | h' | h' <;>
          (rw [hm] at h'; exact absurd h' (by decide))
      | ok resp rest =>
        simp only [hrm]
        cases hx : extract_block_from_response resp piece_index (block_no + 1) bs bl with
        | none =>
          simp only [hx]
          intro h
          simp only [LoopOutcome.err.injEq] at h
          exact absurd h (by decide)
        | some block =>
          simp only [hx]
          have heq : (block_no + 1 + f) * BLOCK_SIZE = (block_no + (f + 1)) * BLOCK_SIZE := by
            ring_nf
          exact ih (block_no + 1) (acc ++ block) rest (by omega)

/-! ## Claim C8: bitfield membership bit order -/

/-- A byte has a positive AND with the single-bit mask `1 <<< m` exactly when
shifting it right by `m` leaves an odd number — i.e. the classic two ways of
reading "bit `m` (from the least significant end) is set" agree. -/
theorem and_mask_pos_iff (b m : Nat) : (b &&& (1 <<< m) > 0) ↔ ((b >>> m) &&& 1 = 1) := by
  rw [Nat.shiftLeft_eq, one_mul, Nat.and_two_pow, Nat.and_one_is_mod, Nat.shiftRight_eq_div_pow,
    Nat.testBit_to_div_mod]
  rcases Nat.mod_two_eq_zero_or_one (b / 2 ^ m) with h | h <;>
    simp [h, Nat.pos_iff_ne_zero, pow_ne_zero]

/-- C8: `piece_exists` tests the byte at `⌊k / 8⌋` against the mask
`1 <<< (7 - k % 8)` — equivalently, bit `(B[k >>> 3] >>> (7 - (k &&& 7))) &&& 1`
— with bit 0 of a byte the most significant; an index whose byte lies beyond
the bitfield is reported as absent. -/
theorem c8_piece_exists (B : List Nat) (k : Nat) :
    (∀ h : k / 8 < B.length,
      (piece_exists k B = true ↔ (B.get ⟨k / 8, h⟩ >>> (7 - k % 8)) &&& 1 = 1))
    ∧ (B.length ≤ k / 8 → piece_exists k B = false) := by
  constructor
  · intro h
    rw [piece_exists]
    simp only [List.getElem?_eq_getElem h, decide_eq_true_eq]
    rw [← and_mask_pos_iff]
    simp [List.get_eq_getElem]
  · intro h
    rw [piece_exists]
    have hnone : B[k / 8]? = none := List.getElem?_eq_none_iff.mpr (by omega)
    simp only [hnone]

/-- C8 (witness): the bitfield `[0b11100000, 0b10010000]` has piece 11
(byte 1, mask `1 <<< 4`) and lacks piece 100 (byte 12, beyond the array). -/
theorem c8_piece_exists_witness :
    piece_exists 11 [224, 144] = true ∧ piece_exists 100 [224, 144] = false :=
  ⟨((c8_piece_exists [224, 144] 11).1 (by decide)).mpr (by decide),
   (c8_piece_exists [224, 144] 100).2 (by decide)⟩

/-! ## Claim C9: a zero length prefix (keep-alive) panics `read_message` -/

/-- C9: when the incoming frame's 4-byte big-endian length prefix is zero (a
keep-alive), `read_message` does not produce an error value — the failed
`assert!` aborts with a panic; and every `.ok` result comes from a frame
whose length prefix is at least 1. -/
theorem c9_read_message_keepalive (t : Nat) (stream : List Nat) :
    (∀ b₀ b₁ b₂ b₃ rest, stream = b₀ :: b₁ :: b₂ :: b₃ :: rest → u32be b₀ b₁ b₂ b₃ = 0 →
      read_message t stream = .panics "got a heartbeat message, not prepared for that")
    ∧ (∀ d r, read_message t stream = .ok d r →
      ∃ b₀ b₁ b₂ b₃ rest, stream = b₀ :: b₁ :: b₂ :: b₃ :: rest ∧ 1 ≤ u32be b₀ b₁ b₂ b₃) := by
  constructor
  · intro b₀ b₁ b₂ b₃ rest hs h0
    subst hs
    simp only [read_message]
    rw [if_pos h0]
  · intro d r h
    rcases stream with _ | ⟨b₀, _ | ⟨b₁, _ | ⟨b₂, _ | ⟨b₃, rest⟩⟩⟩⟩
    · exact ReadOutcome.noConfusion h
    · exact ReadOutcome.noConfusion h
    · exact ReadOutcome.noConfusion h
    · exact ReadOutcome.noConfusion h
    · refine ⟨b₀, b₁, b₂, b₃, rest, rfl, ?_⟩
      simp only [read_message] at h
      by_cases h0 : u32be b₀ b₁ b₂ b₃ = 0
      · rw [if_pos h0] at h
        exact ReadOutcome.noConfusion h
      · omega

/-- C9 (witness): a keep-alive frame (`[0, 0, 0, 0]`) received while a
bitfield message is expected makes `read_message` panic. -/
theorem c9_read_message_keepalive_witness :
    read_message 5 [0, 0, 0, 0] = .panics "got a heartbeat message, not prepared for that" :=
  (c9_read_message_keepalive 5 [0, 0, 0, 0]).1 0 0 0 0 [] rfl (by decide)

/-! ## Claim C2: `download_piece` validates the piece hash -/

/-- C2: `download_piece` (given the external SHA-1 function `sha1`) returns
`.ok` only with bytes whose hash equals the `PieceInfo`'s hash field and only
when the peer's bitfield has the piece's bit; whenever the block loop
completes with accumulated bytes whose hash differs, the result is the
hash-mismatch error; and a missing bitfield bit fails up front. -/
theorem c2_download_piece (sha1 : List Nat → List Nat) (peer : Peer) (stream : List Nat)
    (pi : PieceInfo) :
    (∀ b, download_piece sha1 peer stream pi = .ok b →
      sha1 b = pi.hash ∧ peer.has_piece pi.index = true)
    ∧ (∀ b rest, peer.has_piece pi.index = true →
        download_piece_loop pi.index pi.length (pi.length + 1) 0 [] stream = .done b rest →
        sha1 b ≠ pi.hash →
        download_piece sha1 peer stream pi = .err "hash does not match")
    ∧ (peer.has_piece pi.index = false →
        download_piece sha1 peer stream pi = .err "peer does not have piece") := by
  refine ⟨?_, ?_, ?_⟩
  · intro b h
    rw [download_piece] at h
    by_cases hp : peer.has_piece pi.index = false
    · rw [if_pos hp] at h
      exact POutcome.noConfusion h
    · rw [if_neg hp] at h
      cases hloop : download_piece_loop pi.index pi.length (pi.length + 1) 0 [] stream with
      | panics m =>
        simp only [hloop] at h
        exact POutcome.noConfusion h
      | err m =>
        simp only [hloop] at h
        exact POutcome.noConfusion h
      | done acc rest =>
        simp only [hloop] at h
        by_cases hh : sha1 acc = pi.hash
        · rw [if_pos hh] at h
          have hb : acc = b := by
            simp only [POutcome.ok.injEq] at h
            exact h
          subst hb
          exact ⟨hh, by simpa using hp⟩
        · rw [if_neg hh] at h
          exact POutcome.noConfusion h
  · intro b rest hp hloop hh
    rw [download_piece, if_neg (by simp [hp])]
    simp only [hloop]
    rw [if_neg hh]
  · intro hp
    rw [download_piece, if_pos hp]

/-- C2 (witness): with a one-byte piece, a stream carrying one valid `Piece`
frame with payload byte 99, and a (stand-in) hash function returning twenty
zero bytes, a `PieceInfo` expecting twenty one-bytes makes `download_piece`
return the hash-mismatch error. -/
theorem c2_download_piece_witness :
    download_piece (fun _ => List.replicate 20 0) ⟨List.replicate 20 48, [128]⟩
        [0, 0, 0, 10, 7, 0, 0, 0, 0, 0, 0, 0, 0, 99] ⟨0, 1, List.replicate 20 1⟩
      = .err "hash does not match" :=
  (c2_download_piece (fun _ => List.replicate 20 0) ⟨List.replicate 20 48, [128]⟩
      [0, 0, 0, 10, 7, 0, 0, 0, 0, 0, 0, 0, 0, 99] ⟨0, 1, List.replicate 20 1⟩).2.1
    [99] [] (by decide) (by decide) (by decide)

/-! ## The download scheduler queue (src/main.rs)

The shared work queue of `download_command` (src/main.rs lines 151–181) is a
`Vec<PieceInfo>` behind a mutex whose only post-initialisation operation is
`pop_mutex_vec` (lines 194–196) — a mutex-guarded `Vec::pop`.  Because every
pop happens under the lock, any concurrent execution is equivalent to some
serial order of pops; that serialisation is modelled by `run_queue`, which
applies the pops of an arbitrary interleaving (`schedule` lists, in lock
order, which worker acquired the mutex) to the queue. -/

/-- Mirror of `pop_mutex_vec` (src/main.rs lines 194–196): `Vec::pop`
removes and returns the *last* element; `none` on an empty queue. -/
def pop_mutex_vec {α : Type} (l : List α) : Option (α × List α) :=
  match l.getLast? with
  | none => none
  | some x => some (x, l.dropLast)

/-- A successful pop splits the queue into the remainder and the popped
(last) element. -/
theorem pop_mutex_vec_eq {α : Type} {q q' : List α} {x : α}
    (h : pop_mutex_vec q = some (x, q')) : q = q' ++ [x] := by
  rw [pop_mutex_vec] at h
  cases hl : q.getLast? with
  | none =>
    rw [hl] at h
    exact Option.noConfusion h
  | some y =>
    rw [hl] at h
    simp only [Option.some.injEq, Prod.mk.injEq] at h
    obtain ⟨h1, h2⟩ := h
    have hne : q ≠ [] := by
      intro he
      rw [he] at hl
      exact Option.noConfusion hl
    have hsplit := List.dropLast_append_getLast hne
    rw [List.getLast?_eq_getLast q hne] at hl
    injection hl with hx
    rw [← h2, ← h1, ← hx]
    exact hsplit.symm

/-- One serialised run of the scheduler's queue: each schedule entry is a
worker taking the mutex and popping once (a worker that sees an empty queue
takes nothing — in the source it then exits its loop).  Returns the list of
(worker, piece) deliveries in pop order and the final queue. -/
def run_queue : List PieceInfo → List Nat → List (Nat × PieceInfo) × List PieceInfo
  | q, [] => ([], q)
  | q, w :: ws =>
    match pop_mutex_vec q with
    | none => run_queue q ws
    | some (x, q') =>
      let (ds, qf) := run_queue q' ws
      ((w, x) :: ds, qf)

/-- Structural fact behind C3: the final queue together with the delivered
pieces (in reverse pop order) is exactly the initial queue — pieces are only
ever removed, never re-added. -/
theorem run_queue_partition (q : List PieceInfo) (schedule : List Nat) :
    (run_queue q schedule).2 ++ ((run_queue q schedule).1.map Prod.snd).reverse = q := by
  induction schedule generalizing q with
  | nil => simp [run_queue]
  | cons w ws ih =>
    rw [run_queue]
    cases hp : pop_mutex_vec q with
    | none => exact ih q
    | some p =>
      obtain ⟨x, q'⟩ := p
      have hq : q = q' ++ [x] := pop_mutex_vec_eq hp
      dsimp only
      rw [List.map_cons, List.reverse_cons, ← List.append_assoc, ih q']
      exact hq.symm

/-! ## Claim C3: each queued piece is delivered to at most / exactly one worker -/

/-- C3: in any serialised run of the scheduler's queue (the only operation
after initialisation being the mutex-guarded pop, and a popped piece never
being returned), the deliveries and the final queue partition the initial
queue; hence each queue entry is delivered (to a single worker, by
construction of the delivery pairs) at most once, and when the queue is
drained every entry was delivered exactly once. -/
theorem c3_queue_delivery (q : List PieceInfo) (schedule : List Nat) :
    ((run_queue q schedule).2 ++ ((run_queue q schedule).1.map Prod.snd).reverse = q)
    ∧ (∀ p : PieceInfo, ((run_queue q schedule).1.map Prod.snd).count p ≤ q.count p)
    ∧ ((run_queue q schedule).2 = [] →
        ∀ p : PieceInfo, ((run_queue q schedule).1.map Prod.snd).count p = q.count p) := by
  have hpart := run_queue_partition q schedule
  refine ⟨hpart, ?_, ?_⟩
  · intro p
    conv_rhs => rw [← hpart]
    rw [List.count_append, List.count_reverse]
    omega
  · intro hempty p
    conv_rhs => rw [← hpart]
    rw [hempty, List.nil_append, List.count_reverse]

/-- C3 (witness): two queued pieces and two pops drain the queue, and the
first piece is delivered exactly once. -/
theorem c3_queue_delivery_witness :
    ((run_queue [⟨0, 1, []⟩, ⟨1, 1, []⟩] [5, 9]).1.map Prod.snd).count ⟨0, 1, []⟩
      = ([⟨0, 1, []⟩, ⟨1, 1, []⟩] : List PieceInfo).count ⟨0, 1, []⟩ :=
  (c3_queue_delivery [⟨0, 1, []⟩, ⟨1, 1, []⟩] [5, 9]).2.2 (by decide) ⟨0, 1, []⟩

/-! ## The JSON projection (`json_encode_value`, src/common.rs lines 22–62 /
src/bencode.rs lines 53–93)

The source builds the output `String` (UTF-8 bytes, modelled as a byte
list): integers via `to_string`, byte strings *verbatim* between two `"`
characters (after a UTF-8 check, with no escaping of any kind), lists and
dicts by appending each entry followed by a comma and popping the final
comma.  Failure (`anyhow::Result`) is `none`. -/

mutual

/-- Mirror of `json_encode_value`: note the `Str` arm copies the bytes
verbatim between double quotes, and the dict arm copies each key verbatim
between double quotes followed by a colon. -/
def json_encode_value : Value → Option (List Nat)
  | .int i => some (intStr i)
  | .str s => if isValidUtf8 s then some (34 :: (s ++ [34])) else none
  | .list l =>
    match json_encode_list_body l with
    | some body => some (91 :: (body.dropLast ++ [93]))
    | none => none
  | .dict d =>
    match json_encode_dict_body d with
    | some body => some (123 :: (body.dropLast ++ [125]))
    | none => none

/-- The element encodings, each followed by the comma the source appends
(the final comma is popped by the caller via `dropLast`). -/
def json_encode_list_body : List Value → Option (List Nat)
  | [] => some []
  | v :: rest =>
    match json_encode_value v, json_encode_list_body rest with
    | some e, some b => some (e ++ 44 :: b)
    | _, _ => none

/-- The dict entry encodings: `"key":value,` each, keys copied verbatim. -/
def json_encode_dict_body : List (List Nat × Value) → Option (List Nat)
  | [] => some []
  | (k, v) :: rest =>
    match json_encode_value v, json_encode_dict_body rest with
    | some e, some b => some (34 :: (k ++ 34 :: 58 :: (e ++ 44 :: b)))
    | _, _ => none

end

/-- A byte string occurs (as a `Str` payload) somewhere inside a value: the
value itself, a list element, or a dict entry's value. -/
inductive ContainsStr : Value → List Nat → Prop where
  | self (s : List Nat) : ContainsStr (.str s) s
  | inList {v : Value} {s : List Nat} {l : List Value} :
      v ∈ l → ContainsStr v s → ContainsStr (.list l) s
  | inDict {p : List Nat × Value} {s : List Nat} {d : List (List Nat × Value)} :
      p ∈ d → ContainsStr p.2 s → ContainsStr (.dict d) s

/-! ### A JSON string-literal decoder, modelled from the JSON specification

To state that an output is (or is not) "a valid JSON document encoding a
given string", the RFC 8259 string grammar is modelled: a leading and a
trailing quote, no unescaped `"`/`\`/control bytes in between, the eight
single-character escapes and `\uXXXX` (decoded to the UTF-8 bytes of the
code point; surrogate pairing is not modelled — a leniency that only admits
*more* documents, so proofs that a decode fails are conservative). -/

/-- Value of one ASCII hex digit. -/
def hexVal (c : Nat) : Option Nat :=
  if 48 ≤ c ∧ c ≤ 57 then some (c - 48)
  else if 65 ≤ c ∧ c ≤ 70 then some (c - 55)
  else if 97 ≤ c ∧ c ≤ 102 then some (c - 87)
  else none

/-- UTF-8 encoding of a code point (as needed for `\uXXXX`: at most 3 bytes
for values below `0x10000`). -/
def utf8EncodeCp (n : Nat) : List Nat :=
  if n < 128 then [n]
  else if n < 2048 then [192 + n / 64, 128 + n % 64]
  else if n < 65536 then [224 + n / 4096, 128 + n / 64 % 64, 128 + n % 64]
  else [240 + n / 262144, 128 + n / 4096 % 64, 128 + n / 64 % 64, 128 + n % 64]

/-- The eight single-character JSON escapes (`\" \\ \/ \b \f \n \r \t`). -/
def escMap (e : Nat) : Option Nat :=
  if e = 34 then some 34
  else if e = 92 then some 92
  else if e = 47 then some 47
  else if e = 98 then some 8
  else if e = 102 then some 12
  else if e = 110 then some 10
  else if e = 114 then some 13
  else if e = 116 then some 9
  else none

/-- Modelled from the spec: the body of a JSON string literal — consume
bytes until the closing unescaped quote, decoding escapes, rejecting
unescaped control bytes; returns the decoded bytes and the input after the
closing quote. -/
def jsonStrBody : List Nat → List Nat → Option (List Nat × List Nat)
  | [], _ => none
  | c :: rest, acc =>
    if c = 34 then some (acc, rest)
    else if c = 92 then
      match rest with
      | [] => none
      | e :: rest₂ =>
        if e = 117 then
          match rest₂ with
          | h₁ :: h₂ :: h₃ :: h₄ :: rest₃ =>
            match hexVal h₁, hexVal h₂, hexVal h₃, hexVal h₄ with
            | some a, some b, some c', some d =>
              jsonStrBody rest₃ (acc ++ utf8EncodeCp (((a * 16 + b) * 16 + c') * 16 + d))
            | _, _, _, _ => none
          | _ => none
        else
          match escMap e with
          | some b => jsonStrBody rest₂ (acc ++ [b])
          | none => none
    else if c < 32 then none
    else jsonStrBody rest (acc ++ [c])

/-- Modelled from the spec: a complete JSON document that is a single string
literal — a quote, a body, the closing quote, nothing after it; returns the
string of bytes the document denotes. -/
def jsonStringDecode (l : List Nat) : Option (List Nat) :=
  match l with
  | 34 :: rest =>
    match jsonStrBody rest [] with
    | some (dec, []) => some dec
    | _ => none
  | _ => none

/-! ### Lemmas about the JSON projection -/

theorem seg_embed {seg o : List Nat} (a b : List Nat)
    (h : ∃ pre post, o = pre ++ seg ++ post) :
    ∃ pre post, a ++ o ++ b = pre ++ seg ++ post := by
  obtain ⟨pre, post, rfl⟩ := h
  exact ⟨a ++ pre, post ++ b, by simp [List.append_assoc]⟩

/-- Every list element's encoding sits inside the (comma-joined) list body,
always followed by at least its trailing comma. -/
theorem json_encode_list_body_member :
    ∀ (l : List Value) (body : List Nat), json_encode_list_body l = some body →
      ∀ v ∈ l, ∃ o, json_encode_value v = some o ∧
        ∃ a b, body = a ++ o ++ b ∧ b ≠ [] := by
  intro l
  induction l with
  | nil =>
    intro body _ v hv
    cases hv
  | cons w rest ih =>
    intro body hbody v hv
    rw [json_encode_list_body] at hbody
    cases he : json_encode_value w with
    | none =>
      rw [he] at hbody
      exact Option.noConfusion hbody
    | some e =>
      cases hb : json_encode_list_body rest with
      | none =>
        rw [he, hb] at hbody
        exact Option.noConfusion hbody
      | some b =>
        rw [he, hb] at hbody
        simp only [Option.some.injEq] at hbody
        subst hbody
        rcases List.mem_cons.mp hv with rfl | hmem
        · exact ⟨e, he, [], 44 :: b, rfl, by simp⟩
        · obtain ⟨o, ho, a', b', hsplit, hne⟩ := ih b hb v hmem
          refine ⟨o, ho, e ++ 44 :: a', b', ?_, hne⟩
          rw [hsplit]
          simp [List.append_assoc]

/-- Every dict entry's value encoding sits inside the dict body, always
followed by at least its trailing comma. -/
theorem json_encode_dict_body_member :
    ∀ (d : List (List Nat × Value)) (body : List Nat), json_encode_dict_body d = some body →
      ∀ p ∈ d, ∃ o, json_encode_value p.2 = some o ∧
        ∃ a b, body = a ++ o ++ b ∧ b ≠ [] := by
  intro d
  induction d with
  | nil =>
    intro body _ p hp
    cases hp
  | cons q rest ih =>
    intro body hbody p hp
    obtain ⟨k, w⟩ := q
    rw [json_encode_dict_body] at hbody
    cases he : json_encode_value w with
    | none =>
      rw [he] at hbody
      exact Option.noConfusion hbody
    | some e =>
      cases hb : json_encode_dict_body rest with
      | none =>
        rw [he, hb] at hbody
        exact Option.noConfusion hbody
      | some b =>
        rw [he, hb] at hbody
        simp only [Option.some.injEq] at hbody
        subst hbody
        rcases List.mem_cons.mp hp with rfl | hmem
        · exact ⟨e, he, 34 :: (k ++ [34, 58]), 44 :: b, by simp [List.append_assoc], by simp⟩
        · obtain ⟨o, ho, a', b', hsplit, hne⟩ := ih b hb p hmem
          refine ⟨o, ho, 34 :: (k ++ 34 :: 58 :: (e ++ 44 :: a')), b', ?_, hne⟩
          rw [hsplit]
          simp [List.append_assoc]

/-- The quoted byte string `"s"` appears verbatim — with no escaping — in
the JSON output of every value that contains `s` as a `Str` payload. -/
theorem json_encode_verbatim {v : Value} {s : List Nat} (hc : ContainsStr v s) :
    ∀ out, json_encode_value v = some out →
      ∃ pre post, out = pre ++ (34 :: (s ++ [34])) ++ post := by
  induction hc with
  | self s =>
    intro out h
    rw [json_encode_value] at h
    by_cases hu : isValidUtf8 s = true
    · rw [if_pos hu] at h
      simp only [Option.some.injEq] at h
      exact ⟨[], [], by simp [h]⟩
    · rw [if_neg hu] at h
      exact Option.noConfusion h
  | inList hmem _ ih =>
    intro out h
    rw [json_encode_value] at h
    cases hbody : json_encode_list_body _ with
    | none =>
      rw [hbody] at h
      exact Option.noConfusion h
    | some body =>
      rw [hbody] at h
      simp only [Option.some.injEq] at h
      subst h
      obtain ⟨o, ho, a, b, hsplit, hne⟩ := json_encode_list_body_member _ body hbody _ hmem
      have hdrop : body.dropLast = a ++ o ++ b.dropLast := by
        rw [hsplit, List.append_assoc,
          List.dropLast_append_of_ne_nil _ (show o ++ b ≠ [] by simp [hne]),
          List.dropLast_append_of_ne_nil _ hne, ← List.append_assoc]
      have hseg := seg_embed (a := a) (b := b.dropLast) (ih o ho)
      rw [← hdrop] at hseg
      have : 91 :: (body.dropLast ++ [93]) = [91] ++ body.dropLast ++ [93] := by simp
      rw [this]
      exact seg_embed [91] [93] hseg
  | inDict hmem _ ih =>
    intro out h
    rw [json_encode_value] at h
    cases hbody : json_encode_dict_body _ with
    | none =>
      rw [hbody] at h
      exact Option.noConfusion h
    | some body =>
      rw [hbody] at h
      simp only [Option.some.injEq] at h
      subst h
      obtain ⟨o, ho, a, b, hsplit, hne⟩ := json_encode_dict_body_member _ body hbody _ hmem
      have hdrop : body.dropLast = a ++ o ++ b.dropLast := by
        rw [hsplit, List.append_assoc,
          List.dropLast_append_of_ne_nil _ (show o ++ b ≠ [] by simp [hne]),
          List.dropLast_append_of_ne_nil _ hne, ← List.append_assoc]
      have hseg := seg_embed (a := a) (b := b.dropLast) (ih o ho)
      rw [← hdrop] at hseg
      have : 123 :: (body.dropLast ++ [125]) = [123] ++ body.dropLast ++ [125] := by simp
      rw [this]
      exact seg_embed [123] [125] hseg

theorem hexVal_lt {c a : Nat} (h : hexVal c = some a) : a < 16 := by
  rw [hexVal] at h
  repeat' split at h
  all_goals first
    | exact Option.noConfusion h
    | (simp only [Option.some.injEq] at h; omega)

theorem utf8EncodeCp_len_le {n : Nat} (h : n < 65536) : (utf8EncodeCp n).length ≤ 3 := by
  rw [utf8EncodeCp]
  by_cases h1 : n < 128
  · rw [if_pos h1]
    simp
  · rw [if_neg h1]
    by_cases h2 : n < 2048
    · rw [if_pos h2]
      simp
    · rw [if_neg h2, if_pos h]
      simp

/-- A body free of quotes, backslashes and control bytes decodes verbatim up
to the closing quote. -/
theorem jsonStrBody_clean :
    ∀ (s rem acc : List Nat), (∀ c ∈ s, c ≠ 34 ∧ c ≠ 92 ∧ 32 ≤ c) →
      jsonStrBody (s ++ 34 :: rem) acc = some (acc ++ s, rem) := by
  intro s
  induction s with
  | nil =>
    intro rem acc _
    rw [List.nil_append, jsonStrBody.eq_def]
    simp
  | cons c cs ih =>
    intro rem acc hcond
    obtain ⟨h34, h92, hge⟩ := hcond c (by simp)
    rw [List.cons_append, jsonStrBody.eq_def]
    dsimp only
    rw [if_neg h34, if_neg h92, if_neg (by omega)]
    rw [ih rem (acc ++ [c]) (fun d hd => hcond d (by simp [hd]))]
    simp

/-- Structure of every successful JSON string-body parse: the consumed body
is followed by the closing quote and the leftover; the decoded string is
never longer than the body, and strictly shorter as soon as the body
contains a quote or a backslash (every such byte can only be consumed
through an escape, which strictly shrinks). -/
theorem jsonStrBody_spec :
    ∀ (n : Nat) (input acc dec rem : List Nat), input.length ≤ n →
      jsonStrBody input acc = some (dec, rem) →
      ∃ body, input = body ++ 34 :: rem ∧ dec.length ≤ acc.length + body.length ∧
        ((34 ∈ body ∨ 92 ∈ body) → dec.length < acc.length + body.length) := by
  intro n
  induction n using Nat.strong_induction_on with
  | _ n ihn =>
    intro input acc dec rem hn h
    match input with
    | [] => exact Option.noConfusion h
    | c :: rest =>
      rw [jsonStrBody.eq_def] at h
      dsimp only at h
      by_cases h34 : c = 34
      · rw [if_pos h34] at h
        simp only [Option.some.injEq, Prod.mk.injEq] at h
        obtain ⟨rfl, rfl⟩ := h
        subst h34
        refine ⟨[], rfl, by simp, ?_⟩
        intro hx
        simp at hx
      · rw [if_neg h34] at h
        by_cases h92 : c = 92
        · rw [if_pos h92] at h
          subst h92
          match rest with
          | [] => exact Option.noConfusion h
          | e :: rest₂ =>
            dsimp only at h
            by_cases h117 : e = 117
            · rw [if_pos h117] at h
              subst h117
              match rest₂ with
              | [] => exact Option.noConfusion h
              | [_] => exact Option.noConfusion h
              | [_, _] => exact Option.noConfusion h
              | [_, _, _] => exact Option.noConfusion h
              | h₁ :: h₂ :: h₃ :: h₄ :: rest₃ =>
                dsimp only at h
                cases hv₁ : hexVal h₁ with
                | none => rw [hv₁] at h; exact Option.noConfusion h
                | some a =>
                cases hv₂ : hexVal h₂ with
                | none => rw [hv₁, hv₂] at h; exact Option.noConfusion h
                | some b =>
                cases hv₃ : hexVal h₃ with
                | none => rw [hv₁, hv₂, hv₃] at h; exact Option.noConfusion h
                | some c' =>
                cases hv₄ : hexVal h₄ with
                | none => rw [hv₁, hv₂, hv₃, hv₄] at h; exact Option.noConfusion h
                | some d =>
                  rw [hv₁, hv₂, hv₃, hv₄] at h
                  dsimp only at h
                  have hlt : ((a * 16 + b) * 16 + c') * 16 + d < 65536 := by
                    have := hexVal_lt hv₁
                    have := hexVal_lt hv₂
                    have := hexVal_lt hv₃
                    have := hexVal_lt hv₄
                    omega
                  have hcp := utf8EncodeCp_len_le hlt
                  simp only [List.length_cons] at hn
                  obtain ⟨body', hsplit, hlen, -⟩ := ihn rest₃.length (by omega) rest₃
                    (acc ++ utf8EncodeCp (((a * 16 + b) * 16 + c') * 16 + d)) dec rem
                    le_rfl h
                  refine ⟨92 :: 117 :: h₁ :: h₂ :: h₃ :: h₄ :: body', by simp [hsplit], ?_, ?_⟩
                  · simp only [List.length_append, List.length_cons, List.length_nil] at hlen
                    simp only [List.length_cons]
                    omega
                  · intro _
                    simp only [List.length_append, List.length_cons, List.length_nil] at hlen
                    simp only [List.length_cons]
                    omega
            · rw [if_neg h117] at h
              cases hesc : escMap e with
              | none => rw [hesc] at h; exact Option.noConfusion h
              | some b =>
                rw [hesc] at h
                simp only [List.length_cons] at hn
                obtain ⟨body', hsplit, hlen, -⟩ := ihn rest₂.length (by omega) rest₂
                  (acc ++ [b]) dec rem le_rfl h
                refine ⟨92 :: e :: body', by simp [hsplit], ?_, ?_⟩
                · simp only [List.length_append, List.length_cons, List.length_nil] at hlen ⊢
                  omega
                · intro _
                  simp only [List.length_append, List.length_cons, List.length_nil] at hlen ⊢
                  omega
        · rw [if_neg h92] at h
          by_cases hctl : c < 32
          · rw [if_pos hctl] at h
            exact Option.noConfusion h
          · rw [if_neg hctl] at h
            simp only [List.length_cons] at hn
            obtain ⟨body', hsplit, hlen, hstrict⟩ := ihn rest.length (by omega) rest
              (acc ++ [c]) dec rem le_rfl h
            refine ⟨c :: body', by simp [hsplit], ?_, ?_⟩
            · simp only [List.length_append, List.length_cons, List.length_nil] at hlen ⊢
              omega
            · intro hx
              have hx' : 34 ∈ body' ∨ 92 ∈ body' := by
                rcases hx with hx | hx <;> rcases List.mem_cons.mp hx with rfl | hm
                · exact absurd rfl h34
                · exact Or.inl hm
                · exact absurd rfl h92
                · exact Or.inr hm
              have := hstrict hx'
              simp only [List.length_append, List.length_cons, List.length_nil] at this ⊢
              omega

/-! ## Claim C10: the JSON projection does not escape string bytes -/

/-- C10: the JSON projection copies byte-string payloads verbatim between
double quotes with no escaping — the quoted bytes appear verbatim in the
output of every value containing the string; consequently, for every byte
string containing a `"` or `\` the emitted quoted form is not a valid JSON
string document denoting that string (it either fails to parse or denotes a
different string), while strings free of bytes requiring JSON escapes
(`"`, `\`, controls) are projected correctly. -/
theorem c10_json_string_projection :
    (∀ (v : Value) (s : List Nat), ContainsStr v s → ∀ out, json_encode_value v = some out →
      ∃ pre post, out = pre ++ (34 :: (s ++ [34])) ++ post)
    ∧ (∀ s : List Nat, 34 ∈ s ∨ 92 ∈ s → ∀ out, json_encode_value (.str s) = some out →
        jsonStringDecode out ≠ some s)
    ∧ (∀ s : List Nat, isValidUtf8 s = true → (∀ c ∈ s, c ≠ 34 ∧ c ≠ 92 ∧ 32 ≤ c) →
        json_encode_value (.str s) = some (34 :: (s ++ [34])) ∧
        jsonStringDecode (34 :: (s ++ [34])) = some s) := by
  refine ⟨fun v s hc => json_encode_verbatim hc, ?_, ?_⟩
  · intro s hbad out hout hdec
    rw [json_encode_value] at hout
    by_cases hu : isValidUtf8 s = true
    · rw [if_pos hu] at hout
      simp only [Option.some.injEq] at hout
      subst hout
      simp only [jsonStringDecode] at hdec
      cases hb : jsonStrBody (s ++ [34]) [] with
      | none =>
        rw [hb] at hdec
        exact Option.noConfusion hdec
      | some pr =>
        obtain ⟨dec, rem⟩ := pr
        rw [hb] at hdec
        cases rem with
        | cons r rs => exact Option.noConfusion hdec
        | nil =>
          simp only [Option.some.injEq] at hdec
          obtain ⟨body, hsplit, hlen, hstrict⟩ :=
            jsonStrBody_spec (s ++ [34]).length (s ++ [34]) [] dec [] le_rfl hb
          have hbody : body = s := by
            have hm : body ++ [34] = s ++ [34] := by simpa using hsplit.symm
            exact List.append_cancel_right hm
          subst hbody
          have hlt := hstrict hbad
          rw [hdec] at hlt
          simp only [List.length_nil, Nat.zero_add] at hlt
          omega
    · rw [if_neg hu] at hout
      exact Option.noConfusion hout
  · intro s hu hclean
    refine ⟨by rw [json_encode_value, if_pos hu], ?_⟩
    simp only [jsonStringDecode]
    rw [show s ++ [34] = s ++ 34 :: [] from rfl, jsonStrBody_clean s [] [] hclean]
    simp

/-- C10 (witness): the byte string `a"b` (containing a quote) is emitted as
the five bytes `"a"b"`, which no longer decode as a JSON string document for
`a"b`; the escape-free string `ab` is projected correctly. -/
theorem c10_json_string_projection_witness :
    jsonStringDecode (34 :: ([97, 34, 98] ++ [34])) ≠ some [97, 34, 98] ∧
    jsonStringDecode (34 :: ([97, 98] ++ [34])) = some [97, 98] :=
  ⟨c10_json_string_projection.2.1 [97, 34, 98] (Or.inl (by decide))
     (34 :: ([97, 34, 98] ++ [34])) (by decide),
   (c10_json_string_projection.2.2 [97, 98] (by decide) (by decide)).2⟩
